import Mathlib

/-!
Verification development for the conduit Matrix home-server core:
a shallow embedding, in Lean, of the PDU codec (`src/pdu.rs`), the
push-rule evaluator (`src/database/pusher.rs`), the outbound
transaction dispatcher (`src/database/sending.rs`) and the
state-event endpoint gate (`src/client_server/state.rs`), together
with theorems settling the specification claims about them.

Conventions of the embedding:
* Bytes are `Nat` (every concrete byte is < 256); byte strings are
  `List Nat`. The sled delimiter byte 0xFF is the literal `255`.
* A sled `Tree` is an association list of key/value pairs kept in
  ascending lexicographic key order; `scan_prefix` is a filter over
  it, `compare_and_swap` is modelled atomically.
* Dynamic JSON (`serde_json::Value`) is the inductive `Json`;
  JSON objects carry their fields as an association list with the
  unique-key discipline of serde maps (lookups take the first hit).
* Rust `Result<T>` is `Except String T`; the only error detail the
  claims need is which operation failed.
-/

namespace Conduit

/-- Dynamic JSON values (`serde_json::Value`). -/
inductive Json where
  | null : Json
  | bool : Bool → Json
  | num : Int → Json
  | str : String → Json
  | arr : List Json → Json
  | obj : List (String × Json) → Json
  deriving Repr

/-- First-match field lookup in a JSON object, as serde maps behave
(keys are unique in values produced by serde). -/
def lookupField : List (String × Json) → String → Option Json
  | [], _ => none
  | (k, v) :: rest, key => if k = key then some v else lookupField rest key

/-- `content.get(key)` on a `serde_json::Value`: a field lookup that
yields nothing unless the value is an object. -/
def Json.getField : Json → String → Option Json
  | Json.obj fields, key => lookupField fields key
  | _, _ => none

/-- `value == "literal"` on a `serde_json::Value` compared against a
string slice: true exactly when the value is that string. -/
def Json.eqStr : Json → String → Bool
  | Json.str s, t => s = t
  | _, _ => false

mutual

/-- Rendering of a JSON value to text, mirroring
`serde_json::to_string` closely enough for the codec claims
(string escaping is elided; all strings the claims touch are
escape-free). -/
def jsonToString : Json → String
  | Json.null => "null"
  | Json.bool true => "true"
  | Json.bool false => "false"
  | Json.num n => toString n
  | Json.str s => "\"" ++ s ++ "\""
  | Json.arr xs => "[" ++ jsonArrToString xs ++ "]"
  | Json.obj fs => "\x7b" ++ jsonObjToString fs ++ "\x7d"

def jsonArrToString : List Json → String
  | [] => ""
  | [x] => jsonToString x
  | x :: y :: rest => jsonToString x ++ "," ++ jsonArrToString (y :: rest)

def jsonObjToString : List (String × Json) → String
  | [] => ""
  | [(k, v)] => "\"" ++ k ++ "\":" ++ jsonToString v
  | (k, v) :: f :: rest =>
      "\"" ++ k ++ "\":" ++ jsonToString v ++ "," ++ jsonObjToString (f :: rest)

end

/-- A persistent data unit, `PduEvent` of `src/pdu.rs` field for
field.  `hashes` keeps the single sha256 component of `EventHash`;
`signatures` is the server-name → key-id → signature map as an
association list. -/
structure PduEvent where
  event_id : String
  room_id : String
  sender : String
  origin_server_ts : Nat
  kind : String
  content : Json
  state_key : Option String
  prev_events : List String
  depth : Nat
  auth_events : List String
  redacts : Option String
  unsigned : List (String × Json)
  hashes : String
  signatures : List (String × List (String × String))
  deriving Repr

/-- Serialisation order of `PduEvent`: the derived serde `Serialize`
emits the fields in declaration order, skipping `state_key` and
`redacts` when absent and `unsigned` when empty. -/
def pduToJson (p : PduEvent) : Json :=
  Json.obj <|
    [("event_id", Json.str p.event_id),
     ("room_id", Json.str p.room_id),
     ("sender", Json.str p.sender),
     ("origin_server_ts", Json.num p.origin_server_ts)]
    ++ [("type", Json.str p.kind)]
    ++ [("content", p.content)]
    ++ (match p.state_key with
        | some sk => [("state_key", Json.str sk)]
        | none => [])
    ++ [("prev_events", Json.arr (p.prev_events.map Json.str)),
        ("depth", Json.num p.depth),
        ("auth_events", Json.arr (p.auth_events.map Json.str))]
    ++ (match p.redacts with
        | some r => [("redacts", Json.str r)]
        | none => [])
    ++ (if p.unsigned.isEmpty then [] else [("unsigned", Json.obj p.unsigned)])
    ++ [("hashes", Json.obj [("sha256", Json.str p.hashes)]),
        ("signatures", Json.obj (p.signatures.map (fun s =>
          (s.1, Json.obj (s.2.map (fun kv => (kv.1, Json.str kv.2)))))))]

/-- `serde_json::to_string(reason)` applied to a PDU. -/
def pduToString (p : PduEvent) : String :=
  jsonToString (pduToJson p)

/-- The per-event-type whitelist of content keys that survive
redaction (`PduEvent::redact`, `src/pdu.rs` lines 40–56). -/
def allowedRedactKeys (kind : String) : List String :=
  if kind = "m.room.member" then ["membership"]
  else if kind = "m.room.create" then ["creator"]
  else if kind = "m.room.join_rules" then ["join_rule"]
  else if kind = "m.room.power_levels" then
    ["ban", "events", "events_default", "kick", "redact",
     "state_default", "users", "users_default"]
  else if kind = "m.room.history_visibility" then ["history_visibility"]
  else []

/-- The redaction projection applied to an object's fields: the
source walks the whitelist in order and moves each present key from
the old content into the fresh map (`src/pdu.rs` lines 63–69); since
serde maps are key-sorted and each whitelist is already sorted, the
walk order is the result order. -/
def redactContent (allowed : List String) (fields : List (String × Json)) :
    List (String × Json) :=
  allowed.filterMap (fun k => (lookupField fields k).map (fun v => (k, v)))

/-- `PduEvent::redact` (`src/pdu.rs` lines 37–81): clears `unsigned`,
replaces `content` with the whitelisted projection for the event
type, and records the serialised reason PDU under
`unsigned.redacted_because`; fails when the content is not a JSON
object. -/
def PduEvent.redact (self : PduEvent) (reason : PduEvent) :
    Except String PduEvent :=
  match self.content with
  | Json.obj fields =>
      Except.ok
        { self with
          content := Json.obj (redactContent (allowedRedactKeys self.kind) fields),
          unsigned := [("redacted_because", Json.str (pduToString reason))] }
  | _ => Except.error "PDU in db has invalid content."

theorem lookupField_redactContent_of_not_mem {allowed : List String}
    {fields : List (String × Json)} {k : String} (hk : k ∉ allowed) :
    lookupField (redactContent allowed fields) k = none := by
  induction allowed with
  | nil => rfl
  | cons a as ih =>
      have hka : k ≠ a := fun h => hk (h ▸ List.mem_cons_self a as)
      have hkas : k ∉ as := fun h => hk (List.mem_cons_of_mem a h)
      unfold redactContent at *
      cases h : lookupField fields a with
      | none => simpa [h] using ih hkas
      | some v =>
          simp only [List.filterMap_cons, h, Option.map_some]
          simpa [lookupField, (Ne.symm hka)] using ih hkas

theorem lookupField_redactContent_of_mem {allowed : List String}
    {fields : List (String × Json)} {k : String}
    (hnd : allowed.Nodup) (hk : k ∈ allowed) :
    lookupField (redactContent allowed fields) k = lookupField fields k := by
  induction allowed with
  | nil => cases hk
  | cons a as ih =>
      have hnd2 : as.Nodup := hnd.of_cons
      by_cases hka : k = a
      · subst hka
        have hknotas : k ∉ as := (List.nodup_cons.mp hnd).1
        unfold redactContent
        cases h : lookupField fields k with
        | none =>
            simpa [h] using
              @lookupField_redactContent_of_not_mem as fields k hknotas
        | some v => simp [List.filterMap_cons, h, lookupField]
      · have hkas : k ∈ as := (List.mem_cons.mp hk).resolve_left hka
        have hak : a ≠ k := fun h => hka h.symm
        unfold redactContent at *
        cases h : lookupField fields a with
        | none => simpa [h] using ih hnd2 hkas
        | some v =>
            simp only [List.filterMap_cons, h, Option.map_some]
            simpa [lookupField, hak] using ih hnd2 hkas

theorem redactContent_idem {allowed : List String}
    (hnd : allowed.Nodup) (fields : List (String × Json)) :
    redactContent allowed (redactContent allowed fields) =
      redactContent allowed fields := by
  exact List.filterMap_congr (fun k hk => by
    rw [lookupField_redactContent_of_mem hnd hk])

theorem allowedRedactKeys_nodup (kind : String) :
    (allowedRedactKeys kind).Nodup := by
  unfold allowedRedactKeys
  repeat' split
  all_goals decide

/-- **C9.** Redaction is idempotent: on a PDU whose content is a JSON
object, redacting a second time with the same reason PDU changes
nothing — the already-whitelisted content is reproduced unchanged and
the same `unsigned.redacted_because` entry is rewritten. -/
theorem redact_idempotent (P R : PduEvent)
    (fields : List (String × Json)) (hobj : P.content = Json.obj fields) :
    (P.redact R).bind (fun q => q.redact R) = P.redact R := by
  unfold PduEvent.redact
  rw [hobj]
  simp only [Except.bind]
  rw [redactContent_idem (allowedRedactKeys_nodup P.kind)]

/-- A concrete `m.room.member` PDU used as input for witnesses. -/
def memberPdu : PduEvent :=
  { event_id := "$m1"
    room_id := "!r:srv"
    sender := "@alice:srv"
    origin_server_ts := 1000
    kind := "m.room.member"
    content := Json.obj
      [("membership", Json.str "join"), ("displayname", Json.str "Alice")]
    state_key := some "@alice:srv"
    prev_events := ["$p0"]
    depth := 3
    auth_events := ["$c0"]
    redacts := none
    unsigned := [("age", Json.num 5)]
    hashes := "h1"
    signatures := [("srv", [("ed25519:a", "sig")])] }

/-- A concrete redaction-reason PDU used as input for witnesses. -/
def reasonPdu : PduEvent :=
  { event_id := "$m2"
    room_id := "!r:srv"
    sender := "@bob:srv"
    origin_server_ts := 2000
    kind := "m.room.redaction"
    content := Json.obj [("reason", Json.str "spam")]
    state_key := none
    prev_events := ["$m1"]
    depth := 4
    auth_events := ["$c0"]
    redacts := some "$m1"
    unsigned := []
    hashes := "h2"
    signatures := [("srv", [("ed25519:a", "sig2")])] }

/-- Witness for C9: the idempotence theorem applied at a concrete
member PDU and reason PDU. -/
theorem redact_idempotent_witness :
    memberPdu.content =
        Json.obj [("membership", Json.str "join"),
                  ("displayname", Json.str "Alice")] ∧
      (memberPdu.redact reasonPdu).bind (fun q => q.redact reasonPdu) =
        memberPdu.redact reasonPdu :=
  ⟨rfl, redact_idempotent memberPdu reasonPdu _ rfl⟩

/-! ## Push-rule evaluator (`src/database/pusher.rs`) -/

/-- `pat` starts the list `s` (`str::starts_with` on chars). -/
def listStartsWith : List Char → List Char → Bool
  | [], _ => true
  | _ :: _, [] => false
  | a :: as, b :: bs => a = b && listStartsWith as bs

/-- Contiguous-substring test on char lists. -/
def listContainsSub (pat : List Char) : List Char → Bool
  | [] => pat.isEmpty
  | c :: t => listStartsWith pat (c :: t) || listContainsSub pat t

/-- Rust `str::contains`: `s` has `pat` as a contiguous substring. -/
def strContains (s pat : String) : Bool :=
  listContainsSub pat.toList s.toList

/-- A Matrix user id split into its two components;
`as_str` renders `@localpart:server`. -/
structure UserId where
  localpart : String
  server : String
  deriving Repr, DecidableEq

def userIdStr (u : UserId) : String :=
  "@" ++ u.localpart ++ ":" ++ u.server

/-- `ruma::push::Tweak` (`custom` keeps only the name; no claim
inspects custom tweak payloads). -/
inductive Tweak where
  | sound : String → Tweak
  | highlight : Bool → Tweak
  | custom : String → Tweak
  deriving Repr, DecidableEq

/-- `ruma::push::Action`. -/
inductive Action where
  | notify : Action
  | dontNotify : Action
  | coalesce : Action
  | setTweak : Tweak → Action
  deriving Repr, DecidableEq

/-- `ruma::push::PushCondition`; only `EventMatch` is inspected by
the evaluator, so the remaining variants are collapsed. -/
inductive PushCondition where
  | eventMatch : String → String → PushCondition
  | otherCondition : PushCondition
  deriving Repr, DecidableEq

/-- One push rule as the evaluator consumes it: id, enabled flag,
actions and optional conditions. -/
structure PushRule where
  ruleId : String
  enabled : Bool
  actions : List Action
  conditions : Option (List PushCondition)
  deriving Repr, DecidableEq

/-- The tweaks collected from a winning rule's actions
(the `filter_map` over `Action::SetTweak` repeated in every arm). -/
def tweaksOf (actions : List Action) : List Tweak :=
  actions.filterMap (fun a =>
    match a with
    | Action.setTweak t => some t
    | _ => none)

/-- `ruma` `MembershipState`. -/
inductive Membership where
  | invite | join | knock | leave | ban
  deriving Repr, DecidableEq

/-- `serde_json::from_value::<MemberEventContent>`: requires a
`membership` field holding a known membership string. -/
def parseMemberContent (j : Json) : Option Membership :=
  match j.getField "membership" with
  | some (Json.str "invite") => some Membership.invite
  | some (Json.str "join") => some Membership.join
  | some (Json.str "knock") => some Membership.knock
  | some (Json.str "leave") => some Membership.leave
  | some (Json.str "ban") => some Membership.ban
  | _ => none

/-- The message-content variants the evaluator distinguishes: only
`Text` is ever destructured; the other known msgtypes are kept
abstract. -/
inductive MsgContent where
  | text : String → MsgContent
  | notice : String → MsgContent
  | emote : String → MsgContent
  deriving Repr, DecidableEq

/-- `serde_json::from_value::<MessageEventContent>`: dispatch on the
`msgtype` tag, requiring a string `body`; unmodelled or unknown
msgtypes deserialize to `none` (an error in the caller). -/
def parseMsgContent (j : Json) : Option MsgContent :=
  match j.getField "msgtype", j.getField "body" with
  | some (Json.str "m.text"), some (Json.str body) => some (MsgContent.text body)
  | some (Json.str "m.notice"), some (Json.str body) => some (MsgContent.notice body)
  | some (Json.str "m.emote"), some (Json.str body) => some (MsgContent.emote body)
  | _, _ => none

/-- The slice of `PowerLevelsEventContent` the evaluator reads:
`notifications.room` (serde default 50) and the `users` map
(serde default empty). -/
structure PowerLevelsSlice where
  notificationsRoom : Int
  users : List (String × Int)
  deriving Repr, DecidableEq

/-- `serde_json::from_value::<PowerLevelsEventContent>(..).ok()`,
restricted to the fields the evaluator compares; fails (`none`) on
non-object content, applies the serde defaults otherwise. -/
def parsePowerLevels (j : Json) : Option PowerLevelsSlice :=
  match j with
  | Json.obj _ =>
      some
        { notificationsRoom :=
            match (j.getField "notifications").bind (·.getField "room") with
            | some (Json.num n) => n
            | _ => 50
          users :=
            match j.getField "users" with
            | some (Json.obj us) =>
                us.filterMap (fun kv =>
                  match kv.2 with
                  | Json.num n => some (kv.1, n)
                  | _ => none)
            | _ => [] }
  | _ => none

/-- The database context `send_push_notice` consults: the size of
`room_members(room_id)` and the current `m.room.power_levels` state
event of the PDU's room. -/
structure PushCtx where
  memberCount : Nat
  powerLevels : Option PduEvent
  deriving Repr

/-- `serde_json::Value` indexing for the `EventMatch` walk:
`json[key]` yields the field on objects and `Null` everywhere
else. -/
def jsonIndex (j : Json) (key : String) : Json :=
  match j with
  | Json.obj fields => (lookupField fields key).getD Json.null
  | _ => Json.null

def jsonAtPath (j : Json) : List String → Json
  | [] => j
  | k :: rest => jsonAtPath (jsonIndex j k) rest

/-- The `EventMatch` test of the `.m.rule.member_event` arm
(`src/database/pusher.rs` lines 218–228): stringify the sub-value at
the dotted path and substring-match the pattern. -/
def evalEventMatch (pdu : PduEvent) (cond : PushCondition) : Bool :=
  match cond with
  | PushCondition.eventMatch key pattern =>
      strContains (jsonToString (jsonAtPath (pduToJson pdu) (key.splitOn "."))) pattern
  | PushCondition.otherCondition => false

/-- The `.m.rule.contains_display_name` arm's condition
(`src/database/pusher.rs` lines 244–267): an `m.room.message` PDU
whose deserialised content is a `Text` message whose body contains —
note — the recipient's **localpart**. -/
def ruleContainsDisplayNameFires (user : UserId) (pdu : PduEvent) :
    Except String Bool :=
  if pdu.kind = "m.room.message" then
    match parseMsgContent pdu.content with
    | none => Except.error "PDU contained bad message content"
    | some (MsgContent.text body) => Except.ok (strContains body user.localpart)
    | some _ => Except.ok false
  else Except.ok false

/-- The `.m.rule.contains_user_name` arm's condition
(`src/database/pusher.rs` lines 323–346): an `m.room.message` PDU
whose deserialised content is a `Text` message whose body contains
the recipient's localpart. -/
def ruleContainsUserNameFires (user : UserId) (pdu : PduEvent) :
    Except String Bool :=
  if pdu.kind = "m.room.message" then
    match parseMsgContent pdu.content with
    | none => Except.error "PDU contained bad message content"
    | some (MsgContent.text body) => Except.ok (strContains body user.localpart)
    | some _ => Except.ok false
  else Except.ok false

/-- The power-level comparison of the `.m.rule.roomnotif` arm:
the current power-levels state event deserialises (errors swallowed
by `.ok()`) and `notifications.room <= users[sender] or 0`. -/
def roomnotifPowerCheck (ctx : PushCtx) (pdu : PduEvent) : Bool :=
  match ctx.powerLevels with
  | none => false
  | some pl =>
      match parsePowerLevels pl.content with
      | none => false
      | some slice =>
          slice.notificationsRoom ≤ ((lookupIntField slice.users pdu.sender).getD 0)
where
  lookupIntField : List (String × Int) → String → Option Int
    | [], _ => none
    | (k, v) :: rest, key => if k = key then some v else lookupIntField rest key

/-- Whether one rule's match arm fires (reaches its `send_notice`
call) on this PDU for this recipient — the body of the `match
rule.rule_id.as_str()` in `send_push_notice`
(`src/database/pusher.rs` lines 170–423).  Errors are the
`bad_database` propagations of the content deserialisations. -/
def ruleFires (user : UserId) (ctx : PushCtx) (pdu : PduEvent)
    (rule : PushRule) : Except String Bool :=
  if rule.ruleId = ".m.rule.master" then Except.ok false
  else if rule.ruleId = ".m.rule.suppress_notices" then
    Except.ok (pdu.kind = "m.room.message" &&
      (((pdu.content.getField "msgtype").map (fun ty => ty.eqStr "m.notice")).getD false))
  else if rule.ruleId = ".m.rule.invite_for_me" then
    if pdu.kind = "m.room.member" then
      if pdu.state_key = some (userIdStr user) then
        match parseMemberContent pdu.content with
        | none => Except.error "PDU contained bad message content"
        | some m => Except.ok (m = Membership.invite)
      else Except.ok false
    else Except.ok false
  else if rule.ruleId = ".m.rule.member_event" then
    if pdu.kind = "m.room.member" then
      match parseMemberContent pdu.content with
      | none => Except.error "PDU contained bad message content"
      | some _ =>
          match rule.conditions with
          | some conds => Except.ok (conds.any (evalEventMatch pdu))
          | none => Except.ok false
    else Except.ok false
  else if rule.ruleId = ".m.rule.contains_display_name" then
    ruleContainsDisplayNameFires user pdu
  else if rule.ruleId = ".m.rule.tombstone" then
    Except.ok (pdu.kind = "m.room.tombstone" && pdu.state_key = some "")
  else if rule.ruleId = ".m.rule.roomnotif" then
    if pdu.kind = "m.room.message" then
      match parseMsgContent pdu.content with
      | none => Except.error "PDU contained bad message content"
      | some (MsgContent.text body) =>
          Except.ok (strContains body "@room" && roomnotifPowerCheck ctx pdu)
      | some _ => Except.ok false
    else Except.ok false
  else if rule.ruleId = ".m.rule.contains_user_name" then
    ruleContainsUserNameFires user pdu
  else if rule.ruleId = ".m.rule.call" then
    Except.ok (pdu.kind = "m.call.invite")
  else if rule.ruleId = ".m.rule.encrypted_room_one_to_one" then
    Except.ok (ctx.memberCount = 2 && pdu.kind = "m.room.encrypted")
  else if rule.ruleId = ".m.rule.room_one_to_one" then
    Except.ok (ctx.memberCount = 2 && pdu.kind = "m.room.message")
  else if rule.ruleId = ".m.rule.message" then
    Except.ok (pdu.kind = "m.room.message")
  else if rule.ruleId = ".m.rule.encrypted" then
    Except.ok (pdu.kind = "m.room.encrypted")
  else Except.ok false

/-- `send_push_notice` (`src/database/pusher.rs` lines 151–427) as a
decision function: walk the ruleset in order; a rule whose actions
contain `DontNotify`, or which is disabled, is **skipped**
(`continue`); the first remaining rule whose arm matches sends one
notice (`send_notice` + `break`), reported as
`some (rule_id, tweaks)`; reaching the end sends nothing. -/
def sendPushNotice (user : UserId) (ctx : PushCtx) (pdu : PduEvent) :
    List PushRule → Except String (Option (String × List Tweak))
  | [] => Except.ok none
  | rule :: rest =>
      if rule.actions.any (fun a => a = Action.dontNotify) || !rule.enabled then
        sendPushNotice user ctx pdu rest
      else
        match ruleFires user ctx pdu rule with
        | Except.error e => Except.error e
        | Except.ok true => Except.ok (some (rule.ruleId, tweaksOf rule.actions))
        | Except.ok false => sendPushNotice user ctx pdu rest

/-- Modelled from the spec: the default server-side ruleset built by
`push_rules::default_pushrules` (file `src/push_rules.rs`, not among
the provided sources).  Rules appear in the spec's §4.7 table order
(override tier first, `.m.rule.message` and `.m.rule.encrypted`
last).  `.m.rule.master` is disabled by default; it and
`.m.rule.suppress_notices` carry the `DontNotify` action (the claim
itself records that `.m.rule.suppress_notices`'s actions include
`DontNotify`); every other rule notifies. -/
def defaultRulesetModel : List PushRule :=
  [ { ruleId := ".m.rule.master", enabled := false,
      actions := [Action.dontNotify], conditions := some [] },
    { ruleId := ".m.rule.suppress_notices", enabled := true,
      actions := [Action.dontNotify],
      conditions := some [PushCondition.eventMatch "content.msgtype" "m.notice"] },
    { ruleId := ".m.rule.invite_for_me", enabled := true,
      actions := [Action.notify], conditions := none },
    { ruleId := ".m.rule.member_event", enabled := true,
      actions := [Action.notify],
      conditions := some [PushCondition.eventMatch "type" "m.room.member"] },
    { ruleId := ".m.rule.contains_display_name", enabled := true,
      actions := [Action.notify], conditions := none },
    { ruleId := ".m.rule.contains_user_name", enabled := true,
      actions := [Action.notify], conditions := none },
    { ruleId := ".m.rule.tombstone", enabled := true,
      actions := [Action.notify],
      conditions := some [PushCondition.eventMatch "type" "m.room.tombstone"] },
    { ruleId := ".m.rule.roomnotif", enabled := true,
      actions := [Action.notify], conditions := none },
    { ruleId := ".m.rule.call", enabled := true,
      actions := [Action.notify], conditions := none },
    { ruleId := ".m.rule.encrypted_room_one_to_one", enabled := true,
      actions := [Action.notify], conditions := none },
    { ruleId := ".m.rule.room_one_to_one", enabled := true,
      actions := [Action.notify], conditions := none },
    { ruleId := ".m.rule.message", enabled := true,
      actions := [Action.notify], conditions := none },
    { ruleId := ".m.rule.encrypted", enabled := true,
      actions := [Action.notify], conditions := none } ]

/-- An `m.room.message` PDU with `content.msgtype = "m.notice"`. -/
def noticePdu : PduEvent :=
  { event_id := "$n1"
    room_id := "!r:srv"
    sender := "@alice:srv"
    origin_server_ts := 1500
    kind := "m.room.message"
    content := Json.obj
      [("msgtype", Json.str "m.notice"), ("body", Json.str "build finished")]
    state_key := none
    prev_events := ["$m1"]
    depth := 4
    auth_events := ["$c0"]
    redacts := none
    unsigned := []
    hashes := "h3"
    signatures := [("srv", [("ed25519:a", "sig3")])] }

/-- The recipient used in the push-evaluator theorems. -/
def bob : UserId := { localpart := "bob", server := "srv" }

/-- A five-member room with no power-levels state event. -/
def plainCtx : PushCtx := { memberCount := 5, powerLevels := none }

/-- **C1.** The claim fails on the code: because the evaluator loop
*skips* every rule whose actions contain `DontNotify` (the
`continue` at `src/database/pusher.rs` lines 159–168),
`.m.rule.suppress_notices` never wins, and evaluating the default
ruleset on an `m.room.message` PDU with `msgtype = "m.notice"`
reaches `.m.rule.message`, which **does** send a push notice. -/
theorem notice_message_sends_push :
    sendPushNotice bob plainCtx noticePdu defaultRulesetModel =
      Except.ok (some (".m.rule.message", [])) := by
  rfl

/-- `m.text` message whose body contains the recipient's localpart
`"alice"` but not the recipient's display name `"Alice Cooper"`. -/
def textPdu : PduEvent :=
  { event_id := "$t1"
    room_id := "!r:srv"
    sender := "@bob:srv"
    origin_server_ts := 1600
    kind := "m.room.message"
    content := Json.obj
      [("msgtype", Json.str "m.text"), ("body", Json.str "hi alice")]
    state_key := none
    prev_events := ["$n1"]
    depth := 5
    auth_events := ["$c0"]
    redacts := none
    unsigned := []
    hashes := "h4"
    signatures := [("srv", [("ed25519:a", "sig4")])] }

/-- The recipient for the display-name theorem: localpart `"alice"`,
display name `"Alice Cooper"`. -/
def alice : UserId := { localpart := "alice", server := "srv" }

/-- **C8.** The claim fails on the code: the
`.m.rule.contains_display_name` arm tests `body.contains(user.localpart())`
— the recipient's display name is never consulted — so it coincides
with `.m.rule.contains_user_name` on every input; concretely it
fires on a body containing the localpart `"alice"` even though the
display name `"Alice Cooper"` does not occur in the body. -/
theorem contains_display_name_tests_localpart :
    ruleContainsDisplayNameFires alice textPdu = Except.ok true ∧
      strContains "hi alice" "Alice Cooper" = false ∧
      ∀ (u : UserId) (p : PduEvent),
        ruleContainsDisplayNameFires u p = ruleContainsUserNameFires u p :=
  ⟨rfl, rfl, fun _ _ => rfl⟩

/-! ## The keyed byte store (sled trees) -/

/-- Lexicographic strict order on byte keys (sled key order). -/
def keyLt : List Nat → List Nat → Bool
  | [], [] => false
  | [], _ :: _ => true
  | _ :: _, [] => false
  | a :: as, b :: bs => a < b || (a = b && keyLt as bs)

/-- `p` is a (byte-wise) leading segment of `k`. -/
def isPfx : List Nat → List Nat → Bool
  | [], _ => true
  | _ :: _, [] => false
  | a :: as, b :: bs => a = b && isPfx as bs

theorem isPfx_refl (p : List Nat) : isPfx p p = true := by
  induction p with
  | nil => rfl
  | cons a as ih => simp [isPfx, ih]

theorem isPfx_append (p q r : List Nat) (h : isPfx p q = true) :
    isPfx p (q ++ r) = true := by
  induction p generalizing q with
  | nil => rfl
  | cons a as ih =>
      cases q with
      | nil => simp [isPfx] at h
      | cons b bs =>
          simp only [isPfx, Bool.and_eq_true, decide_eq_true_eq] at h
          simp [isPfx, h.1, ih bs h.2]

theorem isPfx_self_append (p r : List Nat) : isPfx p (p ++ r) = true :=
  isPfx_append p p r (isPfx_refl p)

theorem isPfx_length_le {p k : List Nat} (h : isPfx p k = true) :
    p.length ≤ k.length := by
  induction p generalizing k with
  | nil => exact Nat.zero_le _
  | cons a as ih =>
      cases k with
      | nil => simp [isPfx] at h
      | cons b bs =>
          simp only [isPfx, Bool.and_eq_true] at h
          simpa [Nat.succ_le_succ_iff] using ih h.2

theorem isPfx_iff_exists {p k : List Nat} :
    isPfx p k = true ↔ ∃ r, k = p ++ r := by
  constructor
  · intro h
    induction p generalizing k with
    | nil => exact ⟨k, rfl⟩
    | cons a as ih =>
        cases k with
        | nil => simp [isPfx] at h
        | cons b bs =>
            simp only [isPfx, Bool.and_eq_true, decide_eq_true_eq] at h
            obtain ⟨r, hr⟩ := ih h.2
            exact ⟨r, by simp [h.1, hr]⟩
  · rintro ⟨r, rfl⟩
    exact isPfx_self_append p r

/-- A sled tree: ordered key/value pages.  The list is kept in
ascending `keyLt` order by `insert`; all the correctness lemmas
below are stated through `get` and membership and hold for any
list. -/
abbrev Tree (α : Type) := List (List Nat × α)

/-- Point lookup (first match). -/
def Tree.get : Tree α → List Nat → Option α
  | [], _ => none
  | (k, v) :: rest, key => if k = key then some v else Tree.get rest key

/-- Ordered insert with overwrite (`sled::Tree::insert`). -/
def Tree.insert : Tree α → List Nat → α → Tree α
  | [], k, v => [(k, v)]
  | (k1, v1) :: rest, k, v =>
      if keyLt k k1 then (k, v) :: (k1, v1) :: rest
      else if k = k1 then (k, v) :: rest
      else (k1, v1) :: Tree.insert rest k v

/-- Key deletion (`sled::Tree::remove`). -/
def Tree.removeKey (t : Tree α) (k : List Nat) : Tree α :=
  t.filter (fun e => e.1 ≠ k)

/-- Ascending scan of every entry whose key starts with the given
bytes (`sled::Tree::scan_prefix`). -/
def Tree.scanPfx (t : Tree α) (p : List Nat) : Tree α :=
  t.filter (fun e => isPfx p e.1)

/-- `compare_and_swap(key, expected: None, new)`: atomically insert
when the key is vacant; reports whether the swap happened. -/
def Tree.casNoneInsert (t : Tree α) (k : List Nat) (v : α) : Tree α × Bool :=
  match t.get k with
  | none => (t.insert k v, true)
  | some _ => (t, false)

theorem Tree.get_insert (t : Tree α) (k : List Nat) (v : α) (k2 : List Nat) :
    (t.insert k v).get k2 = if k2 = k then some v else t.get k2 := by
  induction t with
  | nil =>
      by_cases h : k2 = k
      · simp [Tree.insert, Tree.get, h]
      · simp [Tree.insert, Tree.get, h, Ne.symm h]
  | cons e rest ih =>
      obtain ⟨k1, v1⟩ := e
      by_cases hlt : keyLt k k1 = true
      · by_cases h : k2 = k
        · simp [Tree.insert, hlt, Tree.get, h]
        · simp [Tree.insert, hlt, Tree.get, h, Ne.symm h]
      · by_cases heq : k = k1
        · subst heq
          by_cases h : k2 = k
          · simp [Tree.insert, hlt, Tree.get, h]
          · simp [Tree.insert, hlt, Tree.get, h, Ne.symm h]
        · have hne : k1 ≠ k := fun h => heq h.symm
          by_cases h : k2 = k1
          · subst h
            simp [Tree.insert, hlt, heq, Tree.get, hne]
          · simp [Tree.insert, hlt, heq, Tree.get, h, Ne.symm h, ih]

theorem Tree.get_insert_self (t : Tree α) (k : List Nat) (v : α) :
    (t.insert k v).get k = some v := by
  simp [Tree.get_insert]

theorem Tree.get_removeKey (t : Tree α) (k k2 : List Nat) :
    (t.removeKey k).get k2 = if k2 = k then none else t.get k2 := by
  induction t with
  | nil => simp [Tree.removeKey, Tree.get]
  | cons e rest ih =>
      obtain ⟨k1, v1⟩ := e
      by_cases hk1 : k1 = k
      · subst hk1
        by_cases h : k2 = k1
        · subst h
          simpa [Tree.removeKey, Tree.get, List.filter] using ih
        · simpa [Tree.removeKey, Tree.get, List.filter, h, Ne.symm h] using ih
      · by_cases h : k2 = k1
        · subst h
          have hk2 : ¬k2 = k := hk1
          simp [Tree.removeKey, List.filter, hk1, Tree.get, hk2]
        · simpa [Tree.removeKey, List.filter, hk1, Tree.get, h, Ne.symm h]
            using ih

theorem Tree.mem_insert_self (t : Tree α) (k : List Nat) (v : α) :
    (k, v) ∈ t.insert k v := by
  induction t with
  | nil => simp [Tree.insert]
  | cons e rest ih =>
      obtain ⟨k1, v1⟩ := e
      by_cases hlt : keyLt k k1 = true
      · simp [Tree.insert, hlt]
      · by_cases heq : k = k1
        · subst heq; simp [Tree.insert, hlt]
        · simp only [Tree.insert, hlt, if_false, heq, ite_false]
          exact List.mem_cons_of_mem _ ih

theorem Tree.mem_insert_of_ne (t : Tree α) {k : List Nat} {v : α}
    (k2 : List Nat) (v2 : α) (hmem : (k, v) ∈ t) (hne : k ≠ k2) :
    (k, v) ∈ t.insert k2 v2 := by
  induction t with
  | nil => cases hmem
  | cons e rest ih =>
      obtain ⟨k1, v1⟩ := e
      rcases List.mem_cons.mp hmem with heq | htail
      · by_cases hlt : keyLt k2 k1 = true
        · simp only [Tree.insert]
          rw [if_pos hlt, heq]
          exact List.mem_cons_of_mem _ (List.mem_cons_self _ _)
        · by_cases h21 : k2 = k1
          · exfalso
            cases heq
            exact hne h21.symm
          · simp only [Tree.insert]
            rw [if_neg hlt, if_neg h21, heq]
            exact List.mem_cons_self _ _
      · by_cases hlt : keyLt k2 k1 = true
        · simp only [Tree.insert]
          rw [if_pos hlt]
          exact List.mem_cons_of_mem _ (List.mem_cons_of_mem _ htail)
        · by_cases h21 : k2 = k1
          · subst h21
            simp [Tree.insert, hlt, htail]
          · simp only [Tree.insert]
            rw [if_neg hlt, if_neg h21]
            exact List.mem_cons_of_mem _ (ih htail)

theorem Tree.get_mem (t : Tree α) (k : List Nat) (v : α)
    (h : t.get k = some v) : (k, v) ∈ t := by
  induction t with
  | nil => simp [Tree.get] at h
  | cons e rest ih =>
      obtain ⟨k1, v1⟩ := e
      by_cases hk : k1 = k
      · subst hk
        simp [Tree.get] at h
        simp [h]
      · simp [Tree.get, hk] at h
        exact List.mem_cons_of_mem _ (ih h)

/-! ## Pusher store (`PushData`, `src/database/pusher.rs` lines 26–71) -/

/-- `ruma` `PusherKind`. -/
inductive PusherKind where
  | http | email
  deriving Repr, DecidableEq

/-- A client pusher; `data.url`/`data.format` flattened, `kind = none`
is the deletion request.  The tree stores the pusher itself where the
source stores its JSON encoding (the serde round-trip on values
written by `set_pusher` is the identity). -/
structure Pusher where
  kind : Option PusherKind
  pushkey : String
  app_id : String
  dataUrl : Option String
  dataFormat : Option String
  deriving Repr, DecidableEq

/-- The byte string of a text value (`str::as_bytes`; all ids the
claims use are ASCII, where char codes and UTF-8 bytes agree). -/
def strBytes (s : String) : List Nat :=
  s.toList.map Char.toNat

/-- `PushData::set_pusher` (`src/database/pusher.rs` lines 39–58):
key is user-id bytes directly followed by pushkey bytes — no
delimiter; a `kind` of `None` deletes, anything else upserts. -/
def set_pusher (t : Tree Pusher) (sender : UserId) (p : Pusher) : Tree Pusher :=
  let key := strBytes (userIdStr sender) ++ strBytes p.pushkey
  match p.kind with
  | none => t.removeKey key
  | some _ => t.insert key p

/-- `PushData::get_pusher` (`src/database/pusher.rs` lines 60–70):
scan every entry whose key starts with the user-id bytes and decode
the values. -/
def get_pusher (t : Tree Pusher) (sender : UserId) : List Pusher :=
  (t.scanPfx (strBytes (userIdStr sender))).map (fun e => e.2)

/-- **C10.** Because pusher keys concatenate user-id and pushkey with
no delimiter and `get_pusher` scans by user-id byte prefix, a user
`u1` whose id bytes are a proper leading segment of `u2`'s id bytes
receives `u2`'s freshly set pusher from `get_pusher`, alongside every
pusher entry stored under `u1`'s own prefix (at any other key). -/
theorem pusher_key_prefix_leak (t : Tree Pusher) (u1 u2 : UserId) (p : Pusher)
    (hpfx : isPfx (strBytes (userIdStr u1)) (strBytes (userIdStr u2)) = true)
    (_hproper : userIdStr u1 ≠ userIdStr u2)
    (hkind : p.kind ≠ none) :
    p ∈ get_pusher (set_pusher t u2 p) u1 ∧
      ∀ (k : List Nat) (q : Pusher), t.get k = some q →
        isPfx (strBytes (userIdStr u1)) k = true →
        k ≠ strBytes (userIdStr u2) ++ strBytes p.pushkey →
        q ∈ get_pusher (set_pusher t u2 p) u1 := by
  cases hk : p.kind with
  | none => exact absurd hk hkind
  | some pk =>
      constructor
      · have hmem : (strBytes (userIdStr u2) ++ strBytes p.pushkey, p) ∈
            t.insert (strBytes (userIdStr u2) ++ strBytes p.pushkey) p :=
          Tree.mem_insert_self t _ p
        have hpfx2 : isPfx (strBytes (userIdStr u1))
            (strBytes (userIdStr u2) ++ strBytes p.pushkey) = true :=
          isPfx_append _ _ _ hpfx
        simp only [get_pusher, set_pusher, hk, Tree.scanPfx]
        exact List.mem_map.mpr ⟨_, List.mem_filter.mpr ⟨hmem, hpfx2⟩, rfl⟩
      · intro k q hget hkpfx hkne
        have hmem : (k, q) ∈ t := Tree.get_mem t k q hget
        have hmem2 : (k, q) ∈
            t.insert (strBytes (userIdStr u2) ++ strBytes p.pushkey) p :=
          Tree.mem_insert_of_ne t _ p hmem hkne
        simp only [get_pusher, set_pusher, hk, Tree.scanPfx]
        exact List.mem_map.mpr ⟨_, List.mem_filter.mpr ⟨hmem2, hkpfx⟩, rfl⟩

/-- User `@a:x`: their id bytes lead `@a:xy`'s id bytes. -/
def shortUser : UserId := { localpart := "a", server := "x" }

/-- User `@a:xy`. -/
def longUser : UserId := { localpart := "a", server := "xy" }

/-- An HTTP pusher belonging to `longUser`. -/
def leakedPusher : Pusher :=
  { kind := some PusherKind.http
    pushkey := "k1"
    app_id := "app"
    dataUrl := some "https://gw/_matrix/push/v1/notify"
    dataFormat := none }

/-- Witness for C10: setting `longUser`'s pusher on the empty store
makes `get_pusher shortUser` return it. -/
theorem pusher_key_prefix_leak_witness :
    isPfx (strBytes (userIdStr shortUser)) (strBytes (userIdStr longUser)) = true ∧
      userIdStr shortUser ≠ userIdStr longUser ∧
      leakedPusher.kind ≠ none ∧
      leakedPusher ∈ get_pusher (set_pusher [] longUser leakedPusher) shortUser :=
  ⟨by decide, by decide, by decide,
    (pusher_key_prefix_leak [] shortUser longUser leakedPusher
      (by decide) (by decide) (by decide)).1⟩

/-! ## Outbound transaction dispatcher (`src/database/sending.rs`)

The two persistent tables are `Tree (List Nat)` (values are the empty
byte string).  Destinations (`OutgoingKind`) carry their identifier
bytes; `'+'` is byte 43, `'$'` is byte 36, the key delimiter is
byte 255. -/

/-- `OutgoingKind` (`src/database/sending.rs` lines 26–31). -/
inductive OutgoingKind where
  | appservice : List Nat → OutgoingKind
  | push : List Nat → OutgoingKind
  | normal : List Nat → OutgoingKind
  deriving Repr, DecidableEq

/-- The identifier bytes written in front of the delimiter for a
destination (the `match` repeated at lines 101–117, 168–186 and
243–259 of `src/database/sending.rs`). -/
def identBytes : OutgoingKind → List Nat
  | OutgoingKind.appservice s => 43 :: s
  | OutgoingKind.push id => 36 :: id
  | OutgoingKind.normal s => s

/-- A destination's key prefix: identifier bytes plus the 0xFF
delimiter. -/
def pfxOf (k : OutgoingKind) : List Nat :=
  identBytes k ++ [255]

/-- `utils::string_from_bytes` success, approximated as an ASCII
check: every byte the dispatcher's identifiers may carry is ASCII
(multi-byte UTF-8 cannot occur inside valid server names, appservice
ids or the lossily re-encoded push ids). -/
def asciiBytes (bs : List Nat) : Bool :=
  bs.all (fun b => b < 128)

/-- `Box::<ServerName>::try_from` success, approximated as the
hostname alphabet of `ruma`: non-empty, every byte an ASCII
alphanumeric, `'-'`, `'.'` or `':'`.  In particular a leading `'+'`
or `'$'` fails validation, as it does in `ruma`. -/
def validServerName (bs : List Nat) : Bool :=
  !bs.isEmpty && bs.all (fun b =>
    (48 ≤ b && b ≤ 57) || (65 ≤ b && b ≤ 90) || (97 ≤ b && b ≤ 122) ||
      b = 45 || b = 46 || b = 58)

/-- `splitn(2, |&b| b == 0xff)` when it yields two parts: the bytes
before the first 255 and everything after it (`none` when no
delimiter occurs, in which case the callers' `parts.next()` for the
pdu part fails). -/
def splitOnceFF : List Nat → Option (List Nat × List Nat)
  | [] => none
  | b :: rest =>
      if b = 255 then some ([], rest)
      else (splitOnceFF rest).map (fun pr => (b :: pr.1, pr.2))

/-- The watch-event key decoding of the steady-state loop
(`src/database/sending.rs` lines 199–236): identifier up to the first
0xFF, then the pdu id; `'+'` marks an appservice (identifier rest
validated as a server name), `'$'` marks a push destination (rest
taken verbatim), anything else is a federation server name. -/
def parseWatchKey (k : List Nat) : Option (OutgoingKind × List Nat) :=
  match splitOnceFF k with
  | none => none
  | some (ident, pdu) =>
      if !asciiBytes ident then none
      else if ident.head? = some 43 then
        if validServerName ident.tail then
          some (OutgoingKind.appservice ident.tail, pdu)
        else none
      else if ident.head? = some 36 then
        some (OutgoingKind.push ident.tail, pdu)
      else if validServerName ident then
        some (OutgoingKind.normal ident, pdu)
      else none

/-- `Sending::parse_servercurrentpdus` (`src/database/sending.rs`
lines 472–504).  Note two divergences from the watch-path decoder,
both faithful to the source: for `'+'` keys the **whole** identifier
(including the `'+'`) is fed to the server-name conversion, which
therefore always fails and drops the entry; for `'$'` keys the push
id **keeps** its `'$'` byte. -/
def parse_servercurrentpdus (k : List Nat) : Option (OutgoingKind × List Nat) :=
  match splitOnceFF k with
  | none => none
  | some (server, pdu) =>
      if !asciiBytes server then none
      else if server.head? = some 43 then
        if validServerName server then
          some (OutgoingKind.appservice server, pdu)
        else none
      else if server.head? = some 36 then
        some (OutgoingKind.push server, pdu)
      else if validServerName server then
        some (OutgoingKind.normal server, pdu)
      else none

/-- The startup-recovery enumeration (`src/database/sending.rs` lines
67–74): iterate the in-flight table, decode each key, skip
reservation markers (empty pdu part) — and stop after **50**
entries. -/
def recoveryEntries (table : Tree (List Nat)) : List (OutgoingKind × List Nat) :=
  ((((table.map (fun e => e.1)).filterMap parse_servercurrentpdus).filter
    (fun e => !e.2.isEmpty)).take 50)

/-- One `HashMap::entry(..).or_insert_with(Vec::new).push(pdu)`
step of the recovery grouping. -/
def insertGroup (gs : List (OutgoingKind × List (List Nat)))
    (k : OutgoingKind) (p : List Nat) : List (OutgoingKind × List (List Nat)) :=
  match gs with
  | [] => [(k, [p])]
  | (k1, ps) :: rest =>
      if k1 = k then (k1, ps ++ [p]) :: rest
      else (k1, ps) :: insertGroup rest k p

/-- The startup recovery pass (`src/database/sending.rs` lines
64–91): group the enumerated in-flight pairs by destination; each
group becomes one launched `handle_event` transaction. -/
def startupRecovery (table : Tree (List Nat)) :
    List (OutgoingKind × List (List Nat)) :=
  (recoveryEntries table).foldl (fun gs e => insertGroup gs e.1 e.2) []

/-- All pdu ids that the launched recovery transactions for a given
destination contain (the concatenation of that destination's
groups). -/
def launchedPdus (gs : List (OutgoingKind × List (List Nat)))
    (k : OutgoingKind) : List (List Nat) :=
  match gs with
  | [] => []
  | (k1, ps) :: rest =>
      if k1 = k then ps ++ launchedPdus rest k else launchedPdus rest k

/-- The in-memory failure map `last_failed_try`: destination ↦
(consecutive failures, instant of last attempt).  Instants are
seconds. -/
abbrev BackoffMap := List (OutgoingKind × Nat × Nat)

def backoffLookup : BackoffMap → OutgoingKind → Option (Nat × Nat)
  | [], _ => none
  | (k1, v) :: rest, k => if k1 = k then some v else backoffLookup rest k

def backoffInsert : BackoffMap → OutgoingKind → Nat × Nat → BackoffMap
  | [], k, v => [(k, v)]
  | (k1, v1) :: rest, k, v =>
      if k1 = k then (k, v) :: rest else (k1, v1) :: backoffInsert rest k v

/-- The `exponential_backoff` closure (`src/database/sending.rs`
lines 201–209): with `tries` consecutive failures last attempted at
`lastAttempt`, a wakeup at `now` is blocked while the elapsed time is
below `min(60·tries², 24h)` (seconds). -/
def backoffBlocked (tries lastAttempt now : Nat) : Bool :=
  decide (now - lastAttempt < min (60 * tries * tries) 86400)

/-- The success branch of the completion handler
(`src/database/sending.rs` lines 100–164): drop every in-flight entry
under the destination's prefix that is strictly longer than the bare
prefix, collect up to 50 pending pdu ids under the same prefix, and
either move them all into the in-flight table and dispatch them as
one new transaction, or — with nothing pending — drop the reservation
marker.  Returns (pending, in-flight, dispatched pdu ids). -/
def onSuccess (kind : OutgoingKind) (pending inflight : Tree (List Nat)) :
    Tree (List Nat) × Tree (List Nat) × Option (List (List Nat)) :=
  let pfx := pfxOf kind
  let toRemove := ((inflight.scanPfx pfx).map (fun e => e.1)).filter
    (fun k => pfx.length ≠ k.length)
  let inflight1 := toRemove.foldl Tree.removeKey inflight
  let newPdus := (((pending.scanPfx pfx).map (fun e => e.1)).map
    (fun k => k.drop pfx.length)).take 50
  if newPdus.isEmpty then
    (pending, inflight1.removeKey pfx, none)
  else
    (newPdus.foldl (fun t pdu => t.removeKey (pfx ++ pdu)) pending,
     newPdus.foldl (fun t pdu => t.insert (pfx ++ pdu) []) inflight1,
     some newPdus)

/-- The dispatcher's state: the two persistent tables, the
destinations of the outstanding `handle_event` futures, the failure
map, and the clock (seconds). -/
structure DispatchState where
  pending : Tree (List Nat)
  inflight : Tree (List Nat)
  txns : List OutgoingKind
  backoff : BackoffMap
  now : Nat
  deriving Repr, DecidableEq

/-- The initial dispatcher state: empty store, nothing outstanding. -/
def dispatchInit : DispatchState :=
  { pending := [], inflight := [], txns := [], backoff := [], now := 0 }

/-- A producer (`send_pdu` / `send_pdu_appservice` / `send_push_pdu`)
inserts a key into the pending table with an empty value. -/
def applyEnqueue (s : DispatchState) (k : List Nat) : DispatchState :=
  { s with pending := s.pending.insert k [] }

/-- Processing of one pending-table watch insert event
(`src/database/sending.rs` lines 196–281): decode the key; drop the
wakeup if the destination is inside its backoff window; try to
reserve the destination with the compare-and-swap on the bare-prefix
marker; on success move the key from pending to in-flight and
dispatch a transaction with that single pdu id. -/
def processWakeup (pending inflight : Tree (List Nat)) (backoff : BackoffMap)
    (now : Nat) (k : List Nat) :
    Tree (List Nat) × Tree (List Nat) × Option (OutgoingKind × List Nat) :=
  match parseWatchKey k with
  | none => (pending, inflight, none)
  | some (kind, pdu) =>
      if (match backoffLookup backoff kind with
          | some (tries, inst) => backoffBlocked tries inst now
          | none => false) then
        (pending, inflight, none)
      else
        match inflight.casNoneInsert (pfxOf kind) [] with
        | (inflight1, true) =>
            (pending.removeKey k, inflight1.insert k [], some (kind, pdu))
        | (_, false) => (pending, inflight, none)

def applyWakeup (s : DispatchState) (k : List Nat) : DispatchState :=
  match processWakeup s.pending s.inflight s.backoff s.now k with
  | (p1, i1, none) => { s with pending := p1, inflight := i1 }
  | (p1, i1, some (kind, _)) =>
      { s with pending := p1, inflight := i1, txns := kind :: s.txns }

/-- Completion of a transaction with a successful response: apply the
success branch to the tables; redispatch when pdu ids were drained. -/
def applySuccess (s : DispatchState) (kind : OutgoingKind) : DispatchState :=
  match onSuccess kind s.pending s.inflight with
  | (p1, i1, some _) =>
      { s with pending := p1, inflight := i1, txns := kind :: s.txns.erase kind }
  | (p1, i1, none) =>
      { s with pending := p1, inflight := i1, txns := s.txns.erase kind }

/-- Completion of a transaction with an error
(`src/database/sending.rs` lines 166–194; the tail of this branch is
truncated in the source file, so the absent arm is Modelled from the
spec: "increment `consecutive_failures`, set `last_attempt = now`,
delete the reservation marker (but leave the in-flight entries)" —
the `Some` arm's increment and the marker removal survive in the
source text). -/
def applyFailure (s : DispatchState) (kind : OutgoingKind) : DispatchState :=
  { s with
    inflight := s.inflight.removeKey (pfxOf kind)
    backoff := backoffInsert s.backoff kind
      (match backoffLookup s.backoff kind with
       | some (n, _) => (n + 1, s.now)
       | none => (1, s.now))
    txns := s.txns.erase kind }

/-- A process restart: the persistent tables survive, the outstanding
futures and the in-memory failure map do not, and the startup
recovery relaunches one transaction per destination found in the
in-flight table. -/
def applyRestart (s : DispatchState) : DispatchState :=
  { s with
    txns := (startupRecovery s.inflight).map (fun g => g.1)
    backoff := [] }

/-- One steady-state step of the dispatcher (no restart): a producer
enqueue, the clock advancing, a watch wakeup, or the completion of an
outstanding transaction with success or failure. -/
inductive SdStep : DispatchState → DispatchState → Prop where
  | enqueue (s : DispatchState) (k : List Nat) : SdStep s (applyEnqueue s k)
  | tick (s : DispatchState) (d : Nat) : SdStep s { s with now := s.now + d }
  | wakeup (s : DispatchState) (k : List Nat) : SdStep s (applyWakeup s k)
  | success (s : DispatchState) (kind : OutgoingKind) (h : kind ∈ s.txns) :
      SdStep s (applySuccess s kind)
  | failure (s : DispatchState) (kind : OutgoingKind) (h : kind ∈ s.txns) :
      SdStep s (applyFailure s kind)

/-- A step of the full system: a steady-state step or a restart with
its startup recovery. -/
inductive Step : DispatchState → DispatchState → Prop where
  | sd {s t : DispatchState} : SdStep s t → Step s t
  | restart (s : DispatchState) : Step s (applyRestart s)

/-- **C4.** A pending-table wakeup for a destination whose failure
record shows `tries` consecutive failures last attempted at
`lastAttempt` is dropped without reserving or dispatching — the
whole dispatcher state is unchanged — whenever the elapsed time is
still below `min(60·tries², 24h)`; the backoff test precedes the
compare-and-swap, so no reservation is even attempted. -/
theorem backoff_window_drops_wakeup (s : DispatchState) (k : List Nat)
    (kind : OutgoingKind) (pdu : List Nat) (tries lastAttempt : Nat)
    (hparse : parseWatchKey k = some (kind, pdu))
    (hrec : backoffLookup s.backoff kind = some (tries, lastAttempt))
    (hwin : s.now - lastAttempt < min (60 * tries * tries) 86400) :
    applyWakeup s k = s := by
  have hb : backoffBlocked tries lastAttempt s.now = true := by
    simpa [backoffBlocked] using hwin
  unfold applyWakeup processWakeup
  simp only [hparse, hrec, hb]
  rfl

/-- The state used by the backoff witnesses: destination `d` failed
three times, ten seconds ago. -/
def staleFailState : DispatchState :=
  { pending := []
    inflight := [([100, 255], []), ([100, 255, 112], [])]
    txns := [OutgoingKind.normal [100]]
    backoff := [(OutgoingKind.normal [100], (3, 50))]
    now := 60 }

/-- Witness for C4: ten seconds after the third failure
(window 540 s) a wakeup for destination `d` is a no-op. -/
theorem backoff_window_drops_wakeup_witness :
    parseWatchKey [100, 255, 113] =
        some (OutgoingKind.normal [100], [113]) ∧
      backoffLookup staleFailState.backoff (OutgoingKind.normal [100]) =
        some (3, 50) ∧
      staleFailState.now - 50 < min (60 * 3 * 3) 86400 ∧
      applyWakeup staleFailState [100, 255, 113] = staleFailState :=
  ⟨by decide, by decide, by decide,
    backoff_window_drops_wakeup staleFailState [100, 255, 113]
      (OutgoingKind.normal [100]) [113] 3 50 (by decide) (by decide) (by decide)⟩

/-- **C5 (amended).** The success branch of the completion handler
never touches the failure map: after any successful transaction —
with or without pending entries left — the destination's
`consecutive_failures`/`last_attempt` record persists, so a
subsequent enqueue can still be dropped by backoff left over from
failures that preceded the success. -/
theorem success_never_clears_backoff (s : DispatchState) (kind : OutgoingKind) :
    (applySuccess s kind).backoff = s.backoff := by
  unfold applySuccess
  rcases onSuccess kind s.pending s.inflight with ⟨p1, i1, d⟩
  cases d <;> rfl

/-- Witness for C5's amended theorem. -/
theorem success_never_clears_backoff_witness :
    (applySuccess staleFailState (OutgoingKind.normal [100])).backoff =
      staleFailState.backoff :=
  success_never_clears_backoff staleFailState (OutgoingKind.normal [100])

/-- Counterexample for C5 as stated: in `staleFailState` the pending
table is empty, yet completing destination `d`'s transaction
successfully leaves the failure record `(3, 50)` in place, and a
wakeup for `d` right afterwards is still dropped by that stale
backoff window. -/
theorem success_does_not_clear_failure_record :
    (applySuccess staleFailState (OutgoingKind.normal [100])).backoff =
        [(OutgoingKind.normal [100], (3, 50))] ∧
      (applySuccess staleFailState (OutgoingKind.normal [100])).pending = [] ∧
      applyWakeup (applySuccess staleFailState (OutgoingKind.normal [100]))
          [100, 255, 113] =
        applySuccess staleFailState (OutgoingKind.normal [100]) := by
  refine ⟨by decide, by decide, ?_⟩
  decide

theorem launchedPdus_insertGroup_self (gs : List (OutgoingKind × List (List Nat)))
    (k : OutgoingKind) (p : List Nat) :
    p ∈ launchedPdus (insertGroup gs k p) k := by
  induction gs with
  | nil => simp [insertGroup, launchedPdus]
  | cons g rest ih =>
      obtain ⟨k1, ps⟩ := g
      by_cases h : k1 = k
      · subst h
        simp [insertGroup, launchedPdus]
      · simp [insertGroup, launchedPdus, h, ih]

theorem launchedPdus_insertGroup_mono (gs : List (OutgoingKind × List (List Nat)))
    (k2 : OutgoingKind) (p2 : List Nat) {k : OutgoingKind} {p : List Nat}
    (h : p ∈ launchedPdus gs k) :
    p ∈ launchedPdus (insertGroup gs k2 p2) k := by
  induction gs with
  | nil => simp [launchedPdus] at h
  | cons g rest ih =>
      obtain ⟨k1, ps⟩ := g
      by_cases h12 : k1 = k2
      · subst h12
        by_cases h1k : k1 = k
        · subst h1k
          simp [launchedPdus] at h
          simp [insertGroup, launchedPdus]
          tauto
        · simp [launchedPdus, h1k] at h
          simp [insertGroup, launchedPdus, h1k]
          exact h
      · by_cases h1k : k1 = k
        · subst h1k
          simp [launchedPdus] at h
          simp [insertGroup, launchedPdus, h12]
          rcases h with h | h
          · exact Or.inl h
          · exact Or.inr (ih h)
        · simp [launchedPdus, h1k] at h
          simp [insertGroup, launchedPdus, h12, h1k]
          exact ih h

/-- **C2 (amended).** Every `(destination, pdu_id)` pair among the
(at most 50) in-flight entries the recovery pass enumerates — decoded
successfully, reservation markers skipped — ends up in a launched
transaction for its destination. -/
theorem startup_recovery_launches_enumerated (table : Tree (List Nat))
    (kind : OutgoingKind) (pdu : List Nat)
    (hmem : (kind, pdu) ∈ recoveryEntries table) :
    pdu ∈ launchedPdus (startupRecovery table) kind := by
  have hfold : ∀ (es : List (OutgoingKind × List Nat))
      (gs : List (OutgoingKind × List (List Nat))),
      ((kind, pdu) ∈ es ∨ pdu ∈ launchedPdus gs kind) →
      pdu ∈ launchedPdus
        (es.foldl (fun gs e => insertGroup gs e.1 e.2) gs) kind := by
    intro es
    induction es with
    | nil =>
        intro gs h
        exact h.resolve_left (by simp)
    | cons e rest ih =>
        intro gs h
        simp only [List.foldl_cons]
        rcases h with hmem1 | hgs
        · rcases List.mem_cons.mp hmem1 with heq | htail
          · refine ih _ (Or.inr ?_)
            cases heq
            exact launchedPdus_insertGroup_self gs kind pdu
          · exact ih _ (Or.inl htail)
        · exact ih _ (Or.inr (launchedPdus_insertGroup_mono gs e.1 e.2 hgs))
  exact hfold (recoveryEntries table) [] (Or.inl hmem)

/-- A one-entry in-flight table for the C2 witness. -/
def smallRecoveryTable : Tree (List Nat) := [([100, 255, 7], [])]

/-- Witness for C2's amended theorem. -/
theorem startup_recovery_launches_enumerated_witness :
    (OutgoingKind.normal [100], [7]) ∈ recoveryEntries smallRecoveryTable ∧
      [7] ∈ launchedPdus (startupRecovery smallRecoveryTable)
        (OutgoingKind.normal [100]) :=
  ⟨by decide,
    startup_recovery_launches_enumerated smallRecoveryTable
      (OutgoingKind.normal [100]) [7] (by decide)⟩

theorem Tree.get_ne_none_of_mem {t : Tree α} {k : List Nat} {v : α}
    (h : (k, v) ∈ t) : t.get k ≠ none := by
  induction t with
  | nil => cases h
  | cons e rest ih =>
      obtain ⟨k1, v1⟩ := e
      rcases List.mem_cons.mp h with heq | htail
      · cases heq
        simp [Tree.get]
      · by_cases hk : k1 = k
        · simp [Tree.get, hk]
        · simpa [Tree.get, hk] using ih htail

theorem foldl_removeKey_get (ks : List (List Nat)) (t : Tree α) (k2 : List Nat) :
    (ks.foldl Tree.removeKey t).get k2 = if k2 ∈ ks then none else t.get k2 := by
  induction ks generalizing t with
  | nil => simp
  | cons a ks ih =>
      simp only [List.foldl_cons, ih, Tree.get_removeKey]
      by_cases ha : k2 = a
      · simp [ha]
      · by_cases hks : k2 ∈ ks <;> simp [ha, hks]

theorem foldl_insertEmpty_get (pdus : List (List Nat)) (pfx : List Nat)
    (t : Tree (List Nat)) (k2 : List Nat) :
    (pdus.foldl (fun t pdu => t.insert (pfx ++ pdu) []) t).get k2 =
      if k2 ∈ pdus.map (fun p => pfx ++ p) then some [] else t.get k2 := by
  induction pdus generalizing t with
  | nil => simp
  | cons p ps ih =>
      simp only [List.foldl_cons, ih, Tree.get_insert, List.map_cons,
        List.mem_cons]
      by_cases hps : k2 ∈ ps.map (fun p => pfx ++ p)
      · simp [hps]
      · by_cases hp : k2 = pfx ++ p <;> simp [hps, hp]

theorem foldl_removeKeyAppend_get (pdus : List (List Nat)) (pfx : List Nat)
    (t : Tree (List Nat)) (k2 : List Nat) :
    (pdus.foldl (fun t pdu => t.removeKey (pfx ++ pdu)) t).get k2 =
      if k2 ∈ pdus.map (fun p => pfx ++ p) then none else t.get k2 := by
  induction pdus generalizing t with
  | nil => simp
  | cons p ps ih =>
      simp only [List.foldl_cons, ih, Tree.get_removeKey, List.map_cons,
        List.mem_cons]
      by_cases hps : k2 ∈ ps.map (fun p => pfx ++ p)
      · simp [hps]
      · by_cases hp : k2 = pfx ++ p <;> simp [hps, hp]

/-- The specification of the success branch, stated over the
resulting tables and dispatch of `onSuccess`: entries outside the
destination's prefix are untouched; in-flight keys under the prefix
and strictly longer than it are deleted (unless immediately re-added
by the drain); the bare-prefix reservation marker survives exactly
when something was drained; the drained pdu ids move from pending to
in-flight and are dispatched as one transaction; the batch is at most
50 and consists of the leading pending keys under the prefix in
ascending key order. -/
def SuccessPostcondition (kind : OutgoingKind)
    (pending inflight : Tree (List Nat)) : Prop :=
  let pfx := pfxOf kind
  let scannedKeys := (pending.scanPfx pfx).map (fun e => e.1)
  let newPdus := (scannedKeys.map (fun k => k.drop pfx.length)).take 50
  let movedKeys := newPdus.map (fun p => pfx ++ p)
  let r := onSuccess kind pending inflight
  (∀ k2, isPfx pfx k2 = false →
      r.2.1.get k2 = inflight.get k2 ∧ r.1.get k2 = pending.get k2) ∧
  (∀ k2, isPfx pfx k2 = true → pfx.length < k2.length → k2 ∉ movedKeys →
      r.2.1.get k2 = none) ∧
  (newPdus ≠ [] → inflight.get pfx ≠ none → r.2.1.get pfx ≠ none) ∧
  (newPdus = [] → r.2.1.get pfx = none) ∧
  (∀ pdu ∈ newPdus,
      r.2.1.get (pfx ++ pdu) = some [] ∧ r.1.get (pfx ++ pdu) = none) ∧
  (∀ k2, k2 ∉ movedKeys → r.1.get k2 = pending.get k2) ∧
  (newPdus ≠ [] → r.2.2 = some newPdus) ∧
  (newPdus = [] → r.2.2 = none) ∧
  newPdus.length ≤ 50 ∧
  movedKeys = scannedKeys.take 50 ∧
  (∀ pdu ∈ newPdus, pending.get (pfx ++ pdu) ≠ none) ∧
  List.Pairwise (fun a b => keyLt a b = true) movedKeys

/-- **C6.** On successful completion of a transaction, the handler
deletes exactly the in-flight entries under the destination's prefix
that are strictly longer than the bare prefix (the reservation
marker survives), takes at most 50 pending pdu ids in ascending key
order, and either moves them all from pending to in-flight while
dispatching one new transaction, or — none pending — deletes the
reservation marker. -/
theorem success_branch_spec (kind : OutgoingKind)
    (pending inflight : Tree (List Nat))
    (hwf : List.Pairwise (fun a b => keyLt a.1 b.1 = true) pending) :
    SuccessPostcondition kind pending inflight := by
  unfold SuccessPostcondition
  dsimp only
  set pfx := pfxOf kind with hpfxDef
  set scannedKeys := (pending.scanPfx pfx).map (fun e => e.1) with hscannedDef
  set newPdus := (scannedKeys.map (fun k => k.drop pfx.length)).take 50
    with hnewDef
  set movedKeys := newPdus.map (fun p => pfx ++ p) with hmovedDef
  set toRemove := ((inflight.scanPfx pfx).map (fun e => e.1)).filter
    (fun k => pfx.length ≠ k.length) with htoRemoveDef
  set inflight1 := toRemove.foldl Tree.removeKey inflight with hinflight1Def
  have hcase : onSuccess kind pending inflight =
      if newPdus.isEmpty then (pending, inflight1.removeKey pfx, none)
      else (newPdus.foldl (fun t pdu => t.removeKey (pfx ++ pdu)) pending,
            newPdus.foldl (fun t pdu => t.insert (pfx ++ pdu) []) inflight1,
            some newPdus) := rfl
  have hscanIsPfx : ∀ k ∈ scannedKeys, isPfx pfx k = true := by
    intro k hk
    obtain ⟨e, he, rfl⟩ := List.mem_map.mp hk
    exact (List.mem_filter.mp he).2
  have happend : ∀ k ∈ scannedKeys, pfx ++ k.drop pfx.length = k := by
    intro k hk
    obtain ⟨r, rfl⟩ := isPfx_iff_exists.mp (hscanIsPfx k hk)
    rw [List.drop_left]
  have hmoved : movedKeys = scannedKeys.take 50 := by
    rw [hmovedDef, hnewDef, List.map_take, List.map_map]
    congr 1
    calc scannedKeys.map ((fun p => pfx ++ p) ∘ fun k => k.drop pfx.length)
        = scannedKeys.map (fun k => k) :=
          List.map_congr_left (fun k hk => happend k hk)
      _ = scannedKeys := List.map_id' scannedKeys
  have hmovedPfx : ∀ k ∈ movedKeys, isPfx pfx k = true := by
    intro k hk
    rw [hmoved] at hk
    exact hscanIsPfx k (List.take_subset _ _ hk)
  have hinfl1get : ∀ k2, inflight1.get k2 =
      if k2 ∈ toRemove then none else inflight.get k2 :=
    fun k2 => foldl_removeKey_get toRemove inflight k2
  have htoRemoveSpec : ∀ k2 ∈ toRemove,
      isPfx pfx k2 = true ∧ pfx.length ≠ k2.length := by
    intro k2 hk
    have h1 := List.mem_filter.mp hk
    obtain ⟨e, he, rfl⟩ := List.mem_map.mp h1.1
    refine ⟨(List.mem_filter.mp he).2, ?_⟩
    simpa using h1.2
  have hmarkerNotRemoved : pfx ∉ toRemove := by
    intro h
    exact (htoRemoveSpec pfx h).2 rfl
  have hget_none : ∀ k2, isPfx pfx k2 = true → pfx.length ≠ k2.length →
      k2 ∉ toRemove → inflight.get k2 = none := by
    intro k2 hp hl hn
    cases hg : inflight.get k2 with
    | none => rfl
    | some v =>
        exfalso
        apply hn
        have hmem : (k2, v) ∈ inflight := Tree.get_mem _ _ _ hg
        have hscan : k2 ∈ (inflight.scanPfx pfx).map (fun e => e.1) :=
          List.mem_map.mpr ⟨(k2, v), List.mem_filter.mpr ⟨hmem, hp⟩, rfl⟩
        exact List.mem_filter.mpr ⟨hscan, by simpa using hl⟩
  by_cases hnp : newPdus = []
  · have hEmpty : newPdus.isEmpty = true := by simp [hnp]
    rw [hcase, if_pos hEmpty]
    refine ⟨?_, ?_, ?_, ?_, ?_, ?_, ?_, ?_, ?_, ?_, ?_, ?_⟩
    · intro k2 hk2
      constructor
      · dsimp only
        rw [Tree.get_removeKey, hinfl1get]
        have hne : k2 ≠ pfx := fun h => by
          rw [h] at hk2
          rw [isPfx_refl] at hk2
          cases hk2
        have hnr : k2 ∉ toRemove := fun h => by
          rw [(htoRemoveSpec k2 h).1] at hk2
          cases hk2
        simp [hne, hnr]
      · rfl
    · intro k2 hp hl hnm
      dsimp only
      rw [Tree.get_removeKey, hinfl1get]
      by_cases hne : k2 = pfx
      · subst hne
        omega
      · by_cases hr : k2 ∈ toRemove
        · simp [hne, hr]
        · simp only [hne, if_false, hr]
          exact hget_none k2 hp (by omega) hr
    · intro h
      exact absurd hnp h
    · intro _
      dsimp only
      rw [Tree.get_removeKey]
      simp
    · intro pdu hpdu
      rw [hnp] at hpdu
      cases hpdu
    · intro k2 _
      rfl
    · intro h
      exact absurd hnp h
    · intro _
      rfl
    · rw [hnp]
      simp
    · exact hmoved
    · intro pdu hpdu
      rw [hnp] at hpdu
      cases hpdu
    · rw [hmoved]
      have hpw : List.Pairwise (fun a b => keyLt a b = true) scannedKeys := by
        rw [hscannedDef]
        exact (List.pairwise_map).mpr
          (hwf.sublist (List.filter_sublist pending))
      exact hpw.sublist (List.take_sublist _ _)
  · have hNotEmpty : newPdus.isEmpty = false := by
      simpa [List.isEmpty_iff] using hnp
    rw [hcase, hNotEmpty]
    simp only [Bool.false_eq_true, if_false]
    refine ⟨?_, ?_, ?_, ?_, ?_, ?_, ?_, ?_, ?_, ?_, ?_, ?_⟩
    · intro k2 hk2
      have hnm : k2 ∉ movedKeys := fun h => by
        rw [hmovedPfx k2 h] at hk2
        cases hk2
      constructor
      · dsimp only
        rw [foldl_insertEmpty_get, hinfl1get]
        have hnr : k2 ∉ toRemove := fun h => by
          rw [(htoRemoveSpec k2 h).1] at hk2
          cases hk2
        simp only [hmovedDef] at hnm
        simp [hnm, hnr]
      · dsimp only
        rw [foldl_removeKeyAppend_get]
        simp only [hmovedDef] at hnm
        simp [hnm]
    · intro k2 hp hl hnm
      rw [foldl_insertEmpty_get, hinfl1get]
      simp only [hmovedDef] at hnm
      by_cases hr : k2 ∈ toRemove
      · simp [hnm, hr]
      · simp only [hnm, if_false, hr]
        exact hget_none k2 hp (by omega) hr
    · intro _ hmarker
      rw [foldl_insertEmpty_get, hinfl1get]
      by_cases hm : pfx ∈ newPdus.map (fun p => pfx ++ p)
      · simp [hm]
      · simp only [hm, if_false, hmarkerNotRemoved]
        simpa [hmarkerNotRemoved] using hmarker
    · intro h
      exact absurd h hnp
    · intro pdu hpdu
      constructor
      · dsimp only
        rw [foldl_insertEmpty_get]
        have : pfx ++ pdu ∈ newPdus.map (fun p => pfx ++ p) :=
          List.mem_map.mpr ⟨pdu, hpdu, rfl⟩
        simp [this]
      · dsimp only
        rw [foldl_removeKeyAppend_get]
        have : pfx ++ pdu ∈ newPdus.map (fun p => pfx ++ p) :=
          List.mem_map.mpr ⟨pdu, hpdu, rfl⟩
        simp [this]
    · intro k2 hnm
      rw [foldl_removeKeyAppend_get]
      simp only [hmovedDef] at hnm
      simp [hnm]
    · intro _
      trivial
    · intro h
      exact absurd h hnp
    · rw [hnewDef]
      exact List.length_take_le _ _
    · exact hmoved
    · intro pdu hpdu
      have hkmem : pfx ++ pdu ∈ movedKeys := List.mem_map.mpr ⟨pdu, hpdu, rfl⟩
      rw [hmoved] at hkmem
      have hscan : pfx ++ pdu ∈ scannedKeys := List.take_subset _ _ hkmem
      obtain ⟨e, he, heq⟩ := List.mem_map.mp hscan
      have hmem : (pfx ++ pdu, e.2) ∈ pending := by
        have := (List.mem_filter.mp he).1
        rw [← heq]
        exact this
      exact Tree.get_ne_none_of_mem hmem
    · rw [hmoved]
      have hpw : List.Pairwise (fun a b => keyLt a b = true) scannedKeys := by
        rw [hscannedDef]
        exact (List.pairwise_map).mpr
          (hwf.sublist (List.filter_sublist pending))
      exact hpw.sublist (List.take_sublist _ _)

/-- A pending table with two entries under `d`'s prefix and one
foreign entry, in ascending key order. -/
def demoPending : Tree (List Nat) :=
  [([100, 255, 1], []), ([100, 255, 2], []), ([101, 255, 3], [])]

/-- An in-flight table with `d`'s reservation marker and one stale
in-flight entry. -/
def demoInflight : Tree (List Nat) :=
  [([100, 255], []), ([100, 255, 0], [])]

/-- Witness for C6: the success-branch postcondition at a concrete
pending/in-flight pair. -/
theorem success_branch_spec_witness :
    List.Pairwise (fun a b => keyLt a.1 b.1 = true) demoPending ∧
      SuccessPostcondition (OutgoingKind.normal [100]) demoPending demoInflight :=
  ⟨by decide, success_branch_spec (OutgoingKind.normal [100]) demoPending
    demoInflight (by decide)⟩

/-! ## At-most-one transaction per destination (C3) -/

/-- Well-formedness of a destination as produced by the key
decoders: identifier bytes never contain the 0xFF delimiter, and a
federation server name is non-empty and does not begin with the
`'+'`/`'$'` marks (the decoders route those to the other two
variants). -/
def WFKind : OutgoingKind → Prop
  | OutgoingKind.appservice s => 255 ∉ s
  | OutgoingKind.push p => 255 ∉ p
  | OutgoingKind.normal n =>
      n ≠ [] ∧ n.head? ≠ some 43 ∧ n.head? ≠ some 36 ∧ 255 ∉ n

theorem identBytes_no255 {k : OutgoingKind} (h : WFKind k) :
    255 ∉ identBytes k := by
  cases k with
  | appservice s => simpa [identBytes, WFKind] using h
  | push p => simpa [identBytes, WFKind] using h
  | normal n => simpa [identBytes] using h.2.2.2

theorem identBytes_inj {d e : OutgoingKind} (hd : WFKind d) (he : WFKind e)
    (h : identBytes d = identBytes e) : d = e := by
  cases d with
  | appservice s =>
      cases e with
      | appservice t => simpa [identBytes] using h
      | push q => simp [identBytes] at h
      | normal m =>
          exfalso
          apply he.2.1
          simp only [identBytes] at h
          rw [← h]
          rfl
  | push p =>
      cases e with
      | appservice t => simp [identBytes] at h
      | push q => simpa [identBytes] using h
      | normal m =>
          exfalso
          apply he.2.2.1
          simp only [identBytes] at h
          rw [← h]
          rfl
  | normal n =>
      cases e with
      | appservice t =>
          exfalso
          apply hd.2.1
          simp only [identBytes] at h
          rw [h]
          rfl
      | push q =>
          exfalso
          apply hd.2.2.1
          simp only [identBytes] at h
          rw [h]
          rfl
      | normal m => simpa [identBytes] using h

theorem pfxOf_inj {d e : OutgoingKind} (hd : WFKind d) (he : WFKind e)
    (h : pfxOf d = pfxOf e) : d = e := by
  apply identBytes_inj hd he
  have := congrArg List.dropLast h
  simpa [pfxOf] using this

theorem no255_pfx_eq (A : List Nat) :
    ∀ (B : List Nat), 255 ∉ A → 255 ∉ B →
      isPfx (A ++ [255]) (B ++ [255]) = true → A = B := by
  induction A with
  | nil =>
      intro B hA hB h
      cases B with
      | nil => rfl
      | cons b bs =>
          exfalso
          simp only [List.nil_append, List.cons_append, isPfx,
            Bool.and_eq_true, decide_eq_true_eq] at h
          exact hB (h.1 ▸ List.mem_cons_self b bs)
  | cons a as ih =>
      intro B hA hB h
      cases B with
      | nil =>
          exfalso
          simp only [List.cons_append, List.nil_append, isPfx,
            Bool.and_eq_true, decide_eq_true_eq] at h
          rcases h with ⟨ha, h2⟩
          cases as with
          | nil => simp [isPfx] at h2
          | cons x xs => simp [isPfx] at h2
      | cons b bs =>
          simp only [List.cons_append, isPfx, Bool.and_eq_true,
            decide_eq_true_eq] at h
          have hA2 : 255 ∉ as := fun hm => hA (List.mem_cons_of_mem a hm)
          have hB2 : 255 ∉ bs := fun hm => hB (List.mem_cons_of_mem b hm)
          rw [h.1, ih bs hA2 hB2 h.2]

/-- Two well-formed destinations with one marker key a leading
segment of the other have equal marker keys. -/
theorem pfx_of_pfx_eq {d e : OutgoingKind} (hd : WFKind d) (he : WFKind e)
    (h : isPfx (pfxOf d) (pfxOf e) = true) : pfxOf d = pfxOf e := by
  have := no255_pfx_eq (identBytes d) (identBytes e)
    (identBytes_no255 hd) (identBytes_no255 he) (by simpa [pfxOf] using h)
  simp [pfxOf, this]

theorem asciiBytes_no255 {bs : List Nat} (h : asciiBytes bs = true) :
    255 ∉ bs := by
  intro hm
  have := (List.all_eq_true.mp h) 255 hm
  simp at this

theorem validServerName_wf {bs : List Nat} (h : validServerName bs = true) :
    bs ≠ [] ∧ 255 ∉ bs := by
  simp only [validServerName, Bool.and_eq_true] at h
  constructor
  · intro hbs
    subst hbs
    simp at h
  · intro hm
    have := (List.all_eq_true.mp h.2) 255 hm
    simp at this

/-- Every destination produced by the watch-path key decoder is
well-formed. -/
theorem parseWatchKey_wf {k : List Nat} {kind : OutgoingKind} {pdu : List Nat}
    (h : parseWatchKey k = some (kind, pdu)) : WFKind kind := by
  unfold parseWatchKey at h
  cases hsp : splitOnceFF k with
  | none => rw [hsp] at h; cases h
  | some pr =>
      obtain ⟨ident, rest⟩ := pr
      rw [hsp] at h
      dsimp only at h
      by_cases h1 : (!asciiBytes ident) = true
      · rw [if_pos h1] at h; cases h
      · rw [if_neg h1] at h
        by_cases h2 : ident.head? = some 43
        · rw [if_pos h2] at h
          by_cases h3 : validServerName ident.tail = true
          · rw [if_pos h3] at h
            injection h with h6
            have h7 : OutgoingKind.appservice ident.tail = kind :=
              congrArg Prod.fst h6
            subst h7
            exact (validServerName_wf h3).2
          · rw [if_neg h3] at h; cases h
        · rw [if_neg h2] at h
          by_cases h4 : ident.head? = some 36
          · rw [if_pos h4] at h
            injection h with h6
            have h7 : OutgoingKind.push ident.tail = kind :=
              congrArg Prod.fst h6
            subst h7
            have hascii : asciiBytes ident = true := by
              revert h1
              cases asciiBytes ident <;> simp
            intro hm
            exact asciiBytes_no255 hascii (List.mem_of_mem_tail hm)
          · rw [if_neg h4] at h
            by_cases h5 : validServerName ident = true
            · rw [if_pos h5] at h
              injection h with h6
              have h7 : OutgoingKind.normal ident = kind :=
                congrArg Prod.fst h6
              subst h7
              exact ⟨(validServerName_wf h5).1, h2, h4, (validServerName_wf h5).2⟩
            · rw [if_neg h5] at h; cases h

theorem get_insert_ne_none {α : Type} {t : Tree α} {k2 : List Nat}
    (h : t.get k2 ≠ none) (k : List Nat) (v : α) :
    (t.insert k v).get k2 ≠ none := by
  rw [Tree.get_insert]
  by_cases hk : k2 = k <;> simp [hk, h]

/-- Outcome analysis of one watch wakeup: either it changes nothing,
or the key parsed, the reservation CAS found the marker vacant, and
the key moves from pending to in-flight with a dispatched
transaction. -/
theorem processWakeup_spec (pending inflight : Tree (List Nat))
    (backoff : BackoffMap) (now : Nat) (k : List Nat) :
    processWakeup pending inflight backoff now k = (pending, inflight, none) ∨
      ∃ kind pdu, parseWatchKey k = some (kind, pdu) ∧
        inflight.get (pfxOf kind) = none ∧
        processWakeup pending inflight backoff now k =
          (pending.removeKey k,
           (inflight.insert (pfxOf kind) []).insert k [],
           some (kind, pdu)) := by
  unfold processWakeup
  cases hp : parseWatchKey k with
  | none => exact Or.inl rfl
  | some pr =>
      obtain ⟨kind, pdu⟩ := pr
      dsimp only
      by_cases hb : (match backoffLookup backoff kind with
          | some (tries, inst) => backoffBlocked tries inst now
          | none => false) = true
      · rw [if_pos hb]
        exact Or.inl rfl
      · rw [if_neg hb]
        unfold Tree.casNoneInsert
        cases hg : inflight.get (pfxOf kind) with
        | none => exact Or.inr ⟨kind, pdu, rfl, hg, rfl⟩
        | some v => exact Or.inl rfl

/-- Entries outside the destination's prefix are untouched by the
success branch's in-flight rewriting. -/
theorem onSuccess_outside (kind : OutgoingKind)
    (pending inflight : Tree (List Nat)) (k2 : List Nat)
    (hout : isPfx (pfxOf kind) k2 = false) :
    (onSuccess kind pending inflight).2.1.get k2 = inflight.get k2 := by
  set pfx := pfxOf kind with hpfxDef
  set scannedKeys := (pending.scanPfx pfx).map (fun e => e.1) with hscannedDef
  set newPdus := (scannedKeys.map (fun k => k.drop pfx.length)).take 50
    with hnewDef
  set toRemove := ((inflight.scanPfx pfx).map (fun e => e.1)).filter
    (fun k => pfx.length ≠ k.length) with htoRemoveDef
  set inflight1 := toRemove.foldl Tree.removeKey inflight with hinflight1Def
  have hcase : onSuccess kind pending inflight =
      if newPdus.isEmpty then (pending, inflight1.removeKey pfx, none)
      else (newPdus.foldl (fun t pdu => t.removeKey (pfx ++ pdu)) pending,
            newPdus.foldl (fun t pdu => t.insert (pfx ++ pdu) []) inflight1,
            some newPdus) := rfl
  have hnr : k2 ∉ toRemove := by
    intro hmem
    have h1 := List.mem_filter.mp hmem
    obtain ⟨e, he, rfl⟩ := List.mem_map.mp h1.1
    rw [(List.mem_filter.mp he).2] at hout
    cases hout
  have h1 : inflight1.get k2 = inflight.get k2 := by
    rw [hinflight1Def, foldl_removeKey_get]
    simp [hnr]
  rw [hcase]
  by_cases hnp : newPdus.isEmpty
  · rw [if_pos hnp]
    dsimp only
    rw [Tree.get_removeKey]
    have hne : k2 ≠ pfx := fun h => by
      rw [h, isPfx_refl] at hout
      cases hout
    rw [if_neg hne]
    exact h1
  · rw [if_neg hnp]
    dsimp only
    rw [foldl_insertEmpty_get]
    have hnm : k2 ∉ newPdus.map (fun p => pfx ++ p) := by
      intro hmem
      obtain ⟨p, _, rfl⟩ := List.mem_map.mp hmem
      rw [isPfx_self_append] at hout
      cases hout
    rw [if_neg hnm]
    exact h1

/-- When the success branch drained and redispatched, the
destination's reservation marker is still present in the resulting
in-flight table. -/
theorem onSuccess_marker (kind : OutgoingKind)
    (pending inflight : Tree (List Nat))
    (hdisp : (onSuccess kind pending inflight).2.2 ≠ none)
    (hold : inflight.get (pfxOf kind) ≠ none) :
    (onSuccess kind pending inflight).2.1.get (pfxOf kind) ≠ none := by
  set pfx := pfxOf kind with hpfxDef
  set scannedKeys := (pending.scanPfx pfx).map (fun e => e.1) with hscannedDef
  set newPdus := (scannedKeys.map (fun k => k.drop pfx.length)).take 50
    with hnewDef
  set toRemove := ((inflight.scanPfx pfx).map (fun e => e.1)).filter
    (fun k => pfx.length ≠ k.length) with htoRemoveDef
  set inflight1 := toRemove.foldl Tree.removeKey inflight with hinflight1Def
  have hcase : onSuccess kind pending inflight =
      if newPdus.isEmpty then (pending, inflight1.removeKey pfx, none)
      else (newPdus.foldl (fun t pdu => t.removeKey (pfx ++ pdu)) pending,
            newPdus.foldl (fun t pdu => t.insert (pfx ++ pdu) []) inflight1,
            some newPdus) := rfl
  rw [hcase] at hdisp ⊢
  by_cases hnp : newPdus.isEmpty
  · rw [if_pos hnp] at hdisp
    exact absurd rfl hdisp
  · rw [if_neg hnp]
    dsimp only
    rw [foldl_insertEmpty_get]
    by_cases hm : pfx ∈ newPdus.map (fun p => pfx ++ p)
    · simp [hm]
    · rw [if_neg hm, hinflight1Def, foldl_removeKey_get]
      have hnr : pfx ∉ toRemove := by
        intro hmem
        have h1 := List.mem_filter.mp hmem
        have := h1.2
        simp at this
      rw [if_neg hnr]
      exact hold

/-- The coupling invariant of the steady-state dispatcher: per
destination at most one outstanding transaction, and every
outstanding transaction's destination is well-formed and holds its
reservation marker in the in-flight table. -/
def DispatchInv (s : DispatchState) : Prop :=
  (∀ d, s.txns.count d ≤ 1) ∧
    ∀ d ∈ s.txns, WFKind d ∧ s.inflight.get (pfxOf d) ≠ none

theorem erase_mem_spec {l : List OutgoingKind} {a d : OutgoingKind}
    (hcount : l.count a ≤ 1) (hd : d ∈ l.erase a) : d ∈ l ∧ d ≠ a := by
  refine ⟨List.mem_of_mem_erase hd, ?_⟩
  intro h
  subst h
  have h2 : 0 < (l.erase d).count d := List.count_pos_iff.mpr hd
  rw [List.count_erase_self] at h2
  omega

theorem count_erase_le_one {l : List OutgoingKind} {a : OutgoingKind}
    (h : ∀ d, l.count d ≤ 1) (d : OutgoingKind) : (l.erase a).count d ≤ 1 := by
  by_cases hda : d = a
  · subst hda
    rw [List.count_erase_self]
    have := h d
    omega
  · rw [List.count_erase_of_ne hda]
    exact h d

/-- Steady-state steps preserve the coupling invariant. -/
theorem sdStep_preserves_inv {s t : DispatchState} (hst : SdStep s t)
    (hinv : DispatchInv s) : DispatchInv t := by
  obtain ⟨hcount, hcouple⟩ := hinv
  cases hst with
  | enqueue k => exact ⟨hcount, hcouple⟩
  | tick d => exact ⟨hcount, hcouple⟩
  | wakeup k =>
      rcases processWakeup_spec s.pending s.inflight s.backoff s.now k with
        hpw | ⟨kind, pdu, hparse, hcas, hpw⟩
      · unfold applyWakeup
        rw [hpw]
        exact ⟨hcount, hcouple⟩
      · unfold applyWakeup
        rw [hpw]
        dsimp only
        have hnotmem : kind ∉ s.txns := fun hm => (hcouple kind hm).2 hcas
        constructor
        · intro d
          rw [List.count_cons]
          by_cases hdk : kind = d
          · subst hdk
            rw [List.count_eq_zero_of_not_mem hnotmem]
            simp
          · have : (kind == d) = false := by simpa using hdk
            rw [this]
            simpa using hcount d
        · intro d hd
          rcases List.mem_cons.mp hd with rfl | hdmem
          · refine ⟨parseWatchKey_wf hparse, ?_⟩
            exact get_insert_ne_none
              (by rw [Tree.get_insert_self]; simp) k []
          · obtain ⟨hwfd, hmarker⟩ := hcouple d hdmem
            exact ⟨hwfd, get_insert_ne_none (get_insert_ne_none hmarker _ _) _ _⟩
  | success kind hmem =>
      obtain ⟨hwfk, hmarkerk⟩ := hcouple kind hmem
      rcases hos : onSuccess kind s.pending s.inflight with ⟨p1, i1, disp⟩
      unfold applySuccess
      rw [hos]
      have hi1 : (onSuccess kind s.pending s.inflight).2.1 = i1 := by rw [hos]
      cases disp with
      | none =>
          dsimp only
          constructor
          · exact count_erase_le_one hcount
          · intro d hd
            obtain ⟨hdmem, hdk⟩ := erase_mem_spec (hcount kind) hd
            obtain ⟨hwfd, hmarkerd⟩ := hcouple d hdmem
            refine ⟨hwfd, ?_⟩
            rw [← hi1]
            have hout : isPfx (pfxOf kind) (pfxOf d) = false := by
              by_contra hcontra
              have htrue : isPfx (pfxOf kind) (pfxOf d) = true := by
                revert hcontra
                cases isPfx (pfxOf kind) (pfxOf d) <;> simp
              exact hdk (pfxOf_inj hwfd hwfk
                (pfx_of_pfx_eq hwfk hwfd htrue).symm)
            rw [onSuccess_outside kind s.pending s.inflight (pfxOf d) hout]
            exact hmarkerd
      | some pdus =>
          dsimp only
          constructor
          · intro d
            rw [List.count_cons]
            by_cases hdk : kind = d
            · subst hdk
              rw [List.count_erase_self]
              have h1 := hcount kind
              have h2 : 0 < s.txns.count kind := List.count_pos_iff.mpr hmem
              simp only [beq_self_eq_true, if_true]
              omega
            · have hbeq : (kind == d) = false := by simpa using hdk
              rw [hbeq]
              have h3 := @count_erase_le_one s.txns kind hcount d
              simpa using h3
          · intro d hd
            rcases List.mem_cons.mp hd with hdeq | hdmem
            · rw [hdeq]
              refine ⟨hwfk, ?_⟩
              rw [← hi1]
              apply onSuccess_marker kind s.pending s.inflight
              · rw [hos]
                simp
              · exact hmarkerk
            · obtain ⟨hdmem2, hdk⟩ := erase_mem_spec (hcount kind) hdmem
              obtain ⟨hwfd, hmarkerd⟩ := hcouple d hdmem2
              refine ⟨hwfd, ?_⟩
              rw [← hi1]
              have hout : isPfx (pfxOf kind) (pfxOf d) = false := by
                by_contra hcontra
                have htrue : isPfx (pfxOf kind) (pfxOf d) = true := by
                  revert hcontra
                  cases isPfx (pfxOf kind) (pfxOf d) <;> simp
                exact hdk (pfxOf_inj hwfd hwfk
                  (pfx_of_pfx_eq hwfk hwfd htrue).symm)
              rw [onSuccess_outside kind s.pending s.inflight (pfxOf d) hout]
              exact hmarkerd
  | failure kind hmem =>
      obtain ⟨hwfk, _⟩ := hcouple kind hmem
      constructor
      · exact count_erase_le_one hcount
      · intro d hd
        obtain ⟨hdmem, hdk⟩ := erase_mem_spec (hcount kind) hd
        obtain ⟨hwfd, hmarkerd⟩ := hcouple d hdmem
        refine ⟨hwfd, ?_⟩
        show (s.inflight.removeKey (pfxOf kind)).get (pfxOf d) ≠ none
        rw [Tree.get_removeKey]
        have hne : pfxOf d ≠ pfxOf kind := fun h =>
          hdk (pfxOf_inj hwfd hwfk h)
        rw [if_neg hne]
        exact hmarkerd

/-- **C3 (amended).** In every dispatcher state reachable by
steady-state steps from the empty initial state — that is, within a
single process run — at most one transaction per destination is in
flight: the watch path dispatches only after the reservation CAS on
the bare-prefix marker succeeds, and the marker is deleted only when
the outstanding transaction has completed. -/
theorem at_most_one_transaction_steady (s : DispatchState)
    (h : Relation.ReflTransGen SdStep dispatchInit s) (d : OutgoingKind) :
    s.txns.count d ≤ 1 := by
  have hinv : DispatchInv s := by
    induction h with
    | refl =>
        exact ⟨fun d => by simp [dispatchInit],
          fun d hd => by simp [dispatchInit] at hd⟩
    | tail hab hbc ih => exact sdStep_preserves_inv hbc ih
  exact hinv.1 d

/-- Witness for C3's amended theorem: a two-step run (enqueue, then
wakeup-dispatch) has exactly one outstanding transaction for `d`. -/
theorem at_most_one_transaction_steady_witness :
    (applyWakeup (applyEnqueue dispatchInit [100, 255, 112])
        [100, 255, 112]).txns.count (OutgoingKind.normal [100]) ≤ 1 :=
  at_most_one_transaction_steady _
    (Relation.ReflTransGen.tail
      (Relation.ReflTransGen.single
        (SdStep.enqueue dispatchInit [100, 255, 112]))
      (SdStep.wakeup _ [100, 255, 112]))
    (OutgoingKind.normal [100])

/-- The state of the restart scenario: destination `d`'s transaction
fails (marker deleted, in-flight entry kept), the process restarts
(recovery relaunches the entry without re-reserving), and a fresh
enqueue's wakeup finds the marker vacant and dispatches again. -/
def doubleDispatchState : DispatchState :=
  applyWakeup
    (applyEnqueue
      (applyRestart
        (applyFailure
          (applyWakeup (applyEnqueue dispatchInit [100, 255, 112])
            [100, 255, 112])
          (OutgoingKind.normal [100])))
      [100, 255, 113])
    [100, 255, 113]

/-- Counterexample for C3 as stated: under the full step relation —
steady-state steps plus restart with startup recovery — a state is
reachable from the empty store in which **two** transactions to the
same destination are in flight, because the recovery pass launches
transactions without reserving the marker that the preceding failure
deleted. -/
theorem two_transactions_in_flight_after_restart :
    Relation.ReflTransGen Step dispatchInit doubleDispatchState ∧
      doubleDispatchState.txns.count (OutgoingKind.normal [100]) = 2 := by
  constructor
  · refine Relation.ReflTransGen.tail (Relation.ReflTransGen.tail
      (Relation.ReflTransGen.tail (Relation.ReflTransGen.tail
        (Relation.ReflTransGen.tail
          (Relation.ReflTransGen.single
            (Step.sd (SdStep.enqueue dispatchInit [100, 255, 112])))
          (Step.sd (SdStep.wakeup _ [100, 255, 112])))
        (Step.sd (SdStep.failure _ (OutgoingKind.normal [100]) (by decide))))
      (Step.restart _)) (Step.sd (SdStep.enqueue _ [100, 255, 113])))
      (Step.sd (SdStep.wakeup _ [100, 255, 113]))
  · decide

/-- An in-flight table with 51 decodable non-marker entries for one
destination. -/
def bigRecoveryTable : Tree (List Nat) :=
  (List.range 51).map (fun i => ([100, 255, i], []))

/-- Counterexample for C2 as stated: with 51 in-flight entries the
pair `(d, [50])` is present and decodes to a non-marker entry, but
the recovery pass's `take(50)` drops it — it is in no launched
transaction. -/
theorem startup_recovery_misses_entry :
    ([100, 255, 50], ([] : List Nat)) ∈ bigRecoveryTable ∧
      parse_servercurrentpdus [100, 255, 50] =
        some (OutgoingKind.normal [100], [50]) ∧
      [50] ∉ launchedPdus (startupRecovery bigRecoveryTable)
        (OutgoingKind.normal [100]) := by
  decide

/-! ## State-event endpoint gate (`src/client_server/state.rs`) -/

/-- A room alias `#localpart:server`; `server_name()` is the part
after the colon. -/
structure RoomAlias where
  localpart : String
  server : String
  deriving Repr, DecidableEq

/-- The slice of `AnyStateEventContent` the helper inspects: the
canonical-alias variant carries the optional primary alias and the
`alt_aliases` list; every other state-event content only contributes
its event type. -/
inductive AnyStateEventContent where
  | roomCanonicalAlias : Option RoomAlias → List RoomAlias → AnyStateEventContent
  | otherContent : String → AnyStateEventContent
  deriving Repr, DecidableEq

def AnyStateEventContent.event_type : AnyStateEventContent → String
  | AnyStateEventContent.roomCanonicalAlias _ _ => "m.room.canonical_alias"
  | AnyStateEventContent.otherContent t => t

/-- The `PduBuilder` of `src/pdu.rs` lines 331–339 (the `unsigned`
field is always `None` in this call path). -/
structure PduBuilderRec where
  event_type : String
  content : Json
  state_key : Option String
  redacts : Option String
  deriving Repr

/-- The database slice the helper consults and mutates: this server's
name, the alias → room index, and the effects of an append — the
appended builders and the outbound queue entries. -/
structure StateDb where
  serverName : String
  aliases : List (RoomAlias × String)
  appended : List (String × PduBuilderRec)
  outbound : List (String × String)
  deriving Repr

/-- `Rooms::id_from_alias` (declared in §4.3 of the spec; `rooms.rs`
is not among the provided sources): the alias index lookup. -/
def id_from_alias (db : StateDb) : List (RoomAlias × String) → RoomAlias → Option String
  | [], _ => none
  | (a1, r) :: rest, a => if a1 = a then some r else id_from_alias db rest a

/-- Modelled from the spec: `Rooms::build_and_append_pdu` (its file,
`rooms.rs`, is not among the provided sources) — allocate the next
event id, append the PDU (spec §4.4 steps 7–8) and enqueue the
outbound entries (step 9).  The append-internal failure modes are not
modelled; C7 only needs that the helper's gate runs first. -/
def build_and_append_pdu (db : StateDb) (builder : PduBuilderRec)
    (room_id : String) : String × StateDb :=
  let eid := "$e" ++ toString db.appended.length
  (eid,
   { db with
     appended := db.appended ++ [(room_id, builder)]
     outbound := db.outbound ++ [(room_id, eid)] })

/-- The aliases the canonical-alias gate inspects: the
`alt_aliases`, then the primary alias when present
(`src/client_server/state.rs` lines 253–258). -/
def listedAliases (al : Option RoomAlias) (altAliases : List RoomAlias) :
    List RoomAlias :=
  altAliases ++ (match al with | some a => [a] | none => [])

/-- `send_state_event_for_key_helper` (`src/client_server/state.rs`
lines 243–291): for an `m.room.canonical_alias` content, check every
listed alias (the `alt_aliases`, then the primary alias) — if any is
on a foreign server or does not resolve to the target room, return
`Forbidden` without reaching `build_and_append_pdu`; otherwise build
and append the PDU.  The state is threaded explicitly: the second
component is the database after the call. -/
def send_state_event_for_key_helper (db : StateDb) (_sender : String)
    (content : AnyStateEventContent) (json : Json) (room_id : String)
    (state_key : Option String) : Except String String × StateDb :=
  let gateFails :=
    match content with
    | AnyStateEventContent.roomCanonicalAlias al altAliases =>
        (listedAliases al altAliases).any
          (fun a =>
            decide (a.server ≠ db.serverName) ||
              decide (id_from_alias db db.aliases a ≠ some room_id))
    | AnyStateEventContent.otherContent _ => false
  if gateFails then
    (Except.error "Forbidden", db)
  else
    let r := build_and_append_pdu db
      { event_type := content.event_type
        content := json
        state_key := state_key
        redacts := none } room_id
    (Except.ok r.1, r.2)

/-- **C7.** A canonical-alias state event listing any alias that is
not on this server or does not resolve to the target room fails with
`Forbidden` before `build_and_append_pdu` runs: no PDU is appended
and nothing is enqueued for outbound delivery (the database comes
back unchanged). -/
theorem canonical_alias_gate (db : StateDb) (sender : String)
    (al : Option RoomAlias) (altAliases : List RoomAlias) (json : Json)
    (room_id : String) (state_key : Option String) (a : RoomAlias)
    (hmem : a ∈ listedAliases al altAliases)
    (hbad : a.server ≠ db.serverName ∨ id_from_alias db db.aliases a ≠ some room_id) :
    send_state_event_for_key_helper db sender
        (AnyStateEventContent.roomCanonicalAlias al altAliases) json
        room_id state_key = (Except.error "Forbidden", db) ∧
      (send_state_event_for_key_helper db sender
        (AnyStateEventContent.roomCanonicalAlias al altAliases) json
        room_id state_key).2.appended = db.appended ∧
      (send_state_event_for_key_helper db sender
        (AnyStateEventContent.roomCanonicalAlias al altAliases) json
        room_id state_key).2.outbound = db.outbound := by
  have hgate : (listedAliases al altAliases).any
      (fun a =>
        decide (a.server ≠ db.serverName) ||
          decide (id_from_alias db db.aliases a ≠ some room_id)) = true := by
    rw [List.any_eq_true]
    refine ⟨a, hmem, ?_⟩
    rcases hbad with h | h <;> simp [h]
  have hmain : send_state_event_for_key_helper db sender
      (AnyStateEventContent.roomCanonicalAlias al altAliases) json
      room_id state_key = (Except.error "Forbidden", db) := by
    unfold send_state_event_for_key_helper
    dsimp only
    rw [hgate]
    rfl
  exact ⟨hmain, by rw [hmain], by rw [hmain]⟩

/-- The database of the C7 witness: the alias `#a:srv` maps to room
`!other:srv`. -/
def aliasDb : StateDb :=
  { serverName := "srv"
    aliases := [({ localpart := "a", server := "srv" }, "!other:srv")]
    appended := []
    outbound := [] }

/-- Witness for C7: setting `m.room.canonical_alias` for room
`!room:srv` naming the alias `#a:srv`, which is mapped to
`!other:srv`, is rejected with `Forbidden` and the database is
unchanged. -/
theorem canonical_alias_gate_witness :
    ({ localpart := "a", server := "srv" } : RoomAlias) ∈
        listedAliases (some { localpart := "a", server := "srv" }) [] ∧
      send_state_event_for_key_helper aliasDb "@alice:srv"
          (AnyStateEventContent.roomCanonicalAlias
            (some { localpart := "a", server := "srv" }) []) (Json.obj [])
          "!room:srv" (some "") = (Except.error "Forbidden", aliasDb) :=
  ⟨by decide,
    (canonical_alias_gate aliasDb "@alice:srv"
      (some { localpart := "a", server := "srv" }) [] (Json.obj [])
      "!room:srv" (some "") { localpart := "a", server := "srv" }
      (by decide) (Or.inr (by decide))).1⟩

end Conduit
